import Mathlib

/-!
# web-scraper.go: the fetch-and-extract worker pool

A shallow embedding of `src/web-scraper.go`.

* `crawl`, `worker_crawl` follow one call of the Go functions from entry to exit.
* `step` is the interleaving semantics of one `handler_get_jobs` request: the
  handler goroutine, the ten `worker_crawl` goroutines, the unbuffered channel
  `jobs`, the wait group `wg` and the mutex-protected `results`.

The outside world (`http.Get`, the HTML parser and the CSS selector engine of
goquery) is a parameter `net`: what a URL answers, and, for a body that parses,
which node texts each selector matches, in document order.
-/

namespace WebScraper

/-! ## Data model (lines 50-60) -/

/-- The Go struct `response` (lines 50-55); a fresh `response{}` has four empty strings. -/
structure response where
  Title : String := ""
  Location : String := ""
  Company : String := ""
  Url : String := ""
deriving DecidableEq

/-- The Go struct `SafeResponseArray` (lines 57-60): `mux` is true while the mutex is locked. -/
structure SafeResponseArray where
  array : List response := []
  mux : Bool := false
deriving DecidableEq

/-! ## The outside world -/

/-- A goquery document as the program sees it: `Find sel` is the list of the text
contents of the nodes that `sel` matches, in document order. -/
structure Document where
  Find : String → List String

/-- An HTTP response as the program sees it: its status code, and what
`goquery.NewDocumentFromReader` makes of its body (`none`: it returns an error). -/
structure HttpResponse where
  StatusCode : Int
  Body : Option Document

/-- What `http.Get(url)` returns: `none` is a non-nil `err`. -/
abbrev Net := String → Option HttpResponse

/-- How a Go call ends: it returns, or the process is gone (`log.Fatal` calls `os.Exit(1)`,
an unrecovered panic kills the process too). -/
inductive Outcome (α : Type) where
  | returned (a : α)
  | exited
deriving DecidableEq

/-! ## crawl (lines 63-104) -/

/-- The selector of line 86. -/
def titleSelector : String := ".jobsearch-JobInfoHeader-title"

/-- The selector of line 90. -/
def locationSelector : String := ".jobsearch-InlineCompanyRating > div:last-child"

/-- The selector of line 95. -/
def companySelector : String := ".jobsearch-CompanyAvatar-companyLink"

/-- Lines 85-98: `res := response{}`, three `doc.Find(sel).Each(...)` loops, each of which
assigns the text of every matched node in turn to one field, then `res.Url = url`. -/
def extract (doc : Document) (url : String) : response :=
  let res : response := {}
  let res := (doc.Find titleSelector).foldl (fun (r : response) s => { r with Title := s }) res
  let res := (doc.Find locationSelector).foldl (fun (r : response) s => { r with Location := s }) res
  let res := (doc.Find companySelector).foldl (fun (r : response) s => { r with Company := s }) res
  { res with Url := url }

/-- What the part of `crawl` before the mutex (lines 65-98) comes to. -/
inductive Fetched where
  | dropped
  | fatal
  | record (res : response)
deriving DecidableEq

/-- Lines 65-98 of `crawl`: `http.Get`; on `err != nil` print and return (`dropped`);
on `StatusCode != 200` `log.Fatalf` (`fatal`); on a parse error `log.Fatal` (`fatal`);
otherwise the extracted record. -/
def fetch (net : Net) (url : String) : Fetched :=
  match net url with
  | none => .dropped
  | some resp =>
    if resp.StatusCode ≠ 200 then .fatal
    else
      match resp.Body with
      | none => .fatal
      | some doc => .record (extract doc url)

/-- One call `crawl(url, results)` followed from entry to exit (lines 63-104). The call
is followed from the moment `results.mux.Lock()` succeeds; waiting for the mutex
belongs to `step`. -/
def crawl (net : Net) (url : String) (results : SafeResponseArray) : Outcome SafeResponseArray :=
  match fetch net url with
  | .dropped => .returned results
  | .fatal => .exited
  | .record res =>
    let results := { results with mux := true }
    let results := { results with array := results.array ++ [res] }
    .returned { results with mux := false }

/-! ## worker_crawl (lines 106-120) -/

/-- What a worker does that others can see: a call of `crawl`, a call of `wg.Done`. -/
inductive Event where
  | crawl (url : String)
  | done
deriving DecidableEq

/-- One `worker_crawl` goroutine (lines 106-120) that receives the URLs `jobs` from the
channel, in this order, and then finds it closed. Each received URL is passed to
`crawl`; on `more == false` the deferred `wg.Done()` runs and the function returns.
`wg.Done()` on a zero counter panics. The first component lists the calls made, also
when the process exits; the second is the aggregate and the wait-group counter on return. -/
def worker_crawl (net : Net) :
    List String → SafeResponseArray → Nat → List Event × Outcome (SafeResponseArray × Nat)
  | [], results, wg =>
    if wg = 0 then ([.done], .exited) else ([.done], .returned (results, wg - 1))
  | url :: jobs, results, wg =>
    match crawl net url results with
    | .returned results =>
      let rest := worker_crawl net jobs results wg
      (.crawl url :: rest.1, rest.2)
    | .exited => ([.crawl url], .exited)

/-! ## One request: handler_get_jobs and its goroutines (lines 106-148) -/

/-- Where a `worker_crawl` goroutine stands. -/
inductive WorkerPc where
  /-- line 109, waiting in `<-jobs` -/
  | recv
  /-- line 112, `crawl(url, results)` called, nothing done yet (lines 65-98 ahead) -/
  | crawl (url : String)
  /-- line 100, before `results.mux.Lock()` -/
  | lock (res : response)
  /-- line 101, before reading `results.array` -/
  | load (res : response)
  /-- line 101, `results.array` read into `tmp`, before assigning `append(tmp, res)` -/
  | store (res : response) (tmp : List response)
  /-- line 102, before `results.mux.Unlock()` -/
  | unlock
  /-- the goroutine has returned -/
  | finished
deriving DecidableEq

/-- Where the goroutine running `handler_get_jobs` stands. -/
inductive MainPc where
  /-- line 135, loop test with counter `i`, then line 137 -/
  | add (i : Nat)
  /-- line 138, before `go worker_crawl(i, ...)` -/
  | go (i : Nat)
  /-- line 141, `k` URLs sent, before `jobs <- seedUrls[k]` or, past the end, line 144 -/
  | send (k : Nat)
  /-- line 146, in `wg.Wait()` -/
  | wait
  /-- line 148, before reading `results.array` -/
  | read
  /-- line 148 passed: `out` is what is marshalled into the reply -/
  | done (out : List response)
deriving DecidableEq

/-- The state of one request. -/
structure State where
  main : MainPc
  /-- `close(jobs)` has happened -/
  closed : Bool
  /-- the counter of `wg` -/
  wg : Nat
  results : SafeResponseArray
  /-- the goroutines started so far; worker `w` is `workers[w]` -/
  workers : List WorkerPc
  /-- the process is gone -/
  exited : Bool
deriving DecidableEq

/-- What the scheduler can pick: the handler goroutine moves alone, the handler hands
its next URL to worker `w` over the unbuffered channel, or worker `w` moves alone. -/
inductive Action where
  | main
  | deliver (w : Nat)
  | work (w : Nat)
deriving DecidableEq

/-- Lines 124-132: fresh `results`, fresh `wg`, fresh channel, no worker yet. -/
def init : State :=
  { main := .add 1, closed := false, wg := 0, results := {}, workers := [], exited := false }

/-- One move of the handler goroutine alone (lines 135-148). `urls` is `seedUrls`. -/
def handler_get_jobs_step (urls : List String) (s : State) : Option State :=
  match s.main with
  | .add i =>
    if i ≤ 10 then some { s with wg := s.wg + 1, main := .go i }
    else some { s with main := .send 0 }
  | .go i => some { s with workers := s.workers ++ [.recv], main := .add (i + 1) }
  | .send k =>
    if k < urls.length then none
    else some { s with closed := true, main := .wait }
  | .wait => if s.wg = 0 then some { s with main := .read } else none
  | .read => some { s with main := .done s.results.array }
  | .done _ => none

/-- The handler's `jobs <- url` (line 142) meets worker `w` waiting in `<-jobs` (line 109). -/
def deliver_step (urls : List String) (w : Nat) (s : State) : Option State :=
  match s.main, s.workers[w]? with
  | .send k, some .recv =>
    match urls[k]? with
    | some url => some { s with workers := s.workers.set w (.crawl url), main := .send (k + 1) }
    | none => none
  | _, _ => none

/-- One move of worker `w` alone (lines 108-118 and, inside `crawl`, lines 65-102). -/
def worker_crawl_step (net : Net) (w : Nat) (s : State) : Option State :=
  match s.workers[w]? with
  | some .recv =>
    if s.closed then
      if s.wg = 0 then some { s with exited := true }
      else some { s with wg := s.wg - 1, workers := s.workers.set w .finished }
    else none
  | some (.crawl url) =>
    match fetch net url with
    | .dropped => some { s with workers := s.workers.set w .recv }
    | .fatal => some { s with exited := true }
    | .record res => some { s with workers := s.workers.set w (.lock res) }
  | some (.lock res) =>
    if s.results.mux then none
    else some { s with results := { s.results with mux := true },
                       workers := s.workers.set w (.load res) }
  | some (.load res) => some { s with workers := s.workers.set w (.store res s.results.array) }
  | some (.store res tmp) =>
    some { s with results := { s.results with array := tmp ++ [res] },
                  workers := s.workers.set w .unlock }
  | some .unlock =>
    some { s with results := { s.results with mux := false },
                  workers := s.workers.set w .recv }
  | some .finished => none
  | none => none

/-- One scheduled move; `none` when the chosen goroutine cannot move. Nothing moves once
the process is gone. -/
def step (urls : List String) (net : Net) (a : Action) (s : State) : Option State :=
  if s.exited then none
  else
    match a with
    | .main => handler_get_jobs_step urls s
    | .deliver w => deliver_step urls w s
    | .work w => worker_crawl_step net w s

/-- A whole schedule, from state `s`. -/
def run (urls : List String) (net : Net) : List Action → State → Option State
  | [], s => some s
  | a :: sched, s =>
    match step urls net a s with
    | some s' => run urls net sched s'
    | none => none

/-- The states one request can be in. -/
def Reachable (urls : List String) (net : Net) (s : State) : Prop :=
  ∃ sched, run urls net sched init = some s

/-- One request `handler_get_jobs` under a schedule: the records marshalled into the reply
(line 148), if the schedule can be run and brings the handler that far. -/
def handler_get_jobs (urls : List String) (net : Net) (sched : List Action) :
    Option (List response) :=
  match run urls net sched init with
  | some s =>
    match s.main with
    | .done out => some out
    | _ => none
  | none => none

/-! ## What the proofs count -/

/-- The record of `url`, when `crawl` gets as far as appending one. -/
def recordOf (net : Net) (url : String) : Option response :=
  match fetch net url with
  | .record res => some res
  | _ => none

/-- The records of the URLs of a list that are fetched and parsed, in the order of the list. -/
def recordsOf (net : Net) (urls : List String) : List response :=
  urls.filterMap (recordOf net)

/-- The URLs of a list on which `crawl` ends the process. -/
def fatalsOf (net : Net) (urls : List String) : List String :=
  urls.filter (fun url => fetch net url = .fatal)

/-- The URLs of a list for which no record is appended. -/
def failedOf (net : Net) (urls : List String) : List String :=
  urls.filter (fun url => (recordOf net url).isNone)

/-- Worker between `Lock` and `Unlock`. -/
def WorkerPc.inCS : WorkerPc → Bool
  | .load _ => true
  | .store _ _ => true
  | .unlock => true
  | _ => false

/-- The records a worker still owes the aggregate. -/
def WorkerPc.pend (net : Net) : WorkerPc → Multiset response
  | .crawl url => (recordsOf net [url] : List response)
  | .lock res => {res}
  | .load res => {res}
  | .store res _ => {res}
  | _ => 0

/-- Whether the URL a worker has just received ends the process. -/
def WorkerPc.fatalPend (net : Net) : WorkerPc → Nat
  | .crawl url => (fatalsOf net [url]).length
  | _ => 0

/-- Whether a worker has yet to call `wg.Done`. -/
def WorkerPc.live : WorkerPc → Nat
  | .finished => 0
  | _ => 1

/-- The moves a worker has left if it receives nothing more. -/
def WorkerPc.weight : WorkerPc → Nat
  | .recv => 1
  | .crawl _ => 6
  | .lock _ => 5
  | .load _ => 4
  | .store _ _ => 3
  | .unlock => 2
  | .finished => 0

/-- The number of URLs the handler has sent. -/
def MainPc.sent (n : Nat) : MainPc → Nat
  | .add _ => 0
  | .go _ => 0
  | .send k => k
  | _ => n

/-- The moves the handler has left, with those of the URLs it has yet to send. -/
def MainPc.weight (n : Nat) : MainPc → Nat
  | .add i => 3 * (11 - i) + 1 + (6 * n + 3)
  | .go i => 3 * (11 - i) + (6 * n + 3)
  | .send k => 6 * (n - k) + 3
  | .wait => 2
  | .read => 1
  | .done _ => 0

/-- A bound on the number of moves left. -/
def State.fuel (urls : List String) (s : State) : Nat :=
  if s.exited then 0
  else 1 + s.main.weight urls.length + (s.workers.map WorkerPc.weight).sum

/-! ## The moves, one by one -/

/-- The moves of `step`, each with what makes it possible. -/
inductive Step (urls : List String) (net : Net) (s : State) : State → Prop where
  | add (i : Nat) (hm : s.main = .add i) (hi : i ≤ 10) :
      Step urls net s { s with wg := s.wg + 1, main := .go i }
  | spawned (i : Nat) (hm : s.main = .add i) (hi : ¬ i ≤ 10) :
      Step urls net s { s with main := .send 0 }
  | go (i : Nat) (hm : s.main = .go i) :
      Step urls net s { s with workers := s.workers ++ [.recv], main := .add (i + 1) }
  | close (k : Nat) (hm : s.main = .send k) (hk : ¬ k < urls.length) :
      Step urls net s { s with closed := true, main := .wait }
  | wait (hm : s.main = .wait) (hwg : s.wg = 0) :
      Step urls net s { s with main := .read }
  | read (hm : s.main = .read) :
      Step urls net s { s with main := .done s.results.array }
  | deliver (w k : Nat) (url : String) (hm : s.main = .send k)
      (hw : s.workers[w]? = some .recv) (hu : urls[k]? = some url) :
      Step urls net s { s with workers := s.workers.set w (.crawl url), main := .send (k + 1) }
  | panic (w : Nat) (hw : s.workers[w]? = some .recv) (hc : s.closed = true) (hwg : s.wg = 0) :
      Step urls net s { s with exited := true }
  | finish (w : Nat) (hw : s.workers[w]? = some .recv) (hc : s.closed = true)
      (hwg : ¬ s.wg = 0) :
      Step urls net s { s with wg := s.wg - 1, workers := s.workers.set w .finished }
  | drop (w : Nat) (url : String) (hw : s.workers[w]? = some (.crawl url))
      (hf : fetch net url = .dropped) :
      Step urls net s { s with workers := s.workers.set w .recv }
  | fatal (w : Nat) (url : String) (hw : s.workers[w]? = some (.crawl url))
      (hf : fetch net url = .fatal) :
      Step urls net s { s with exited := true }
  | fetched (w : Nat) (url : String) (res : response) (hw : s.workers[w]? = some (.crawl url))
      (hf : fetch net url = .record res) :
      Step urls net s { s with workers := s.workers.set w (.lock res) }
  | lock (w : Nat) (res : response) (hw : s.workers[w]? = some (.lock res))
      (hmux : s.results.mux = false) :
      Step urls net s { s with results := { s.results with mux := true },
                               workers := s.workers.set w (.load res) }
  | load (w : Nat) (res : response) (hw : s.workers[w]? = some (.load res)) :
      Step urls net s { s with workers := s.workers.set w (.store res s.results.array) }
  | store (w : Nat) (res : response) (tmp : List response)
      (hw : s.workers[w]? = some (.store res tmp)) :
      Step urls net s { s with results := { s.results with array := tmp ++ [res] },
                               workers := s.workers.set w .unlock }
  | unlock (w : Nat) (hw : s.workers[w]? = some .unlock) :
      Step urls net s { s with results := { s.results with mux := false },
                               workers := s.workers.set w .recv }

/-- What holds of the handler's position in every state of a request. -/
def Phase (urls : List String) (s : State) : Prop :=
  match s.main with
  | .add i => 1 ≤ i ∧ i ≤ 11 ∧ s.workers.length = i - 1 ∧ s.closed = false ∧
      ∀ pc ∈ s.workers, pc = .recv
  | .go i => 1 ≤ i ∧ i ≤ 10 ∧ s.workers.length = i - 1 ∧ s.closed = false ∧
      ∀ pc ∈ s.workers, pc = .recv
  | .send k => k ≤ urls.length ∧ s.workers.length = 10 ∧ s.closed = false
  | .wait => s.workers.length = 10 ∧ s.closed = true
  | .read => s.workers.length = 10 ∧ s.closed = true ∧ ∀ pc ∈ s.workers, pc = .finished
  | .done out => s.workers.length = 10 ∧ s.closed = true ∧
      (∀ pc ∈ s.workers, pc = .finished) ∧ out = s.results.array

/-- What holds in every state of a request. -/
structure Inv (urls : List String) (net : Net) (s : State) : Prop where
  /-- a worker between `Lock` and `Unlock` holds the mutex -/
  cs_locked : ∀ (w : Nat) (pc : WorkerPc), s.workers[w]? = some pc → pc.inCS = true → s.results.mux = true
  /-- at most one worker is between `Lock` and `Unlock` -/
  cs_unique : ∀ (w w' : Nat) (pc pc' : WorkerPc), s.workers[w]? = some pc → s.workers[w']? = some pc' →
    pc.inCS = true → pc'.inCS = true → w = w'
  /-- a locked mutex is held by some worker -/
  locked_cs : s.results.mux = true → ∃ (w : Nat) (pc : WorkerPc), s.workers[w]? = some pc ∧ pc.inCS = true
  /-- what a worker read of the aggregate is still the aggregate when it writes -/
  store_tmp : ∀ (w : Nat) (res : response) (tmp : List response), s.workers[w]? = some (.store res tmp) → tmp = s.results.array
  /-- every record is in the aggregate, owed by a worker, or of a URL yet to be sent -/
  acct : (s.results.array : Multiset response) + (s.workers.map (WorkerPc.pend net)).sum
      + (recordsOf net (urls.drop (s.main.sent urls.length)) : List response)
      = (recordsOf net urls : List response)
  /-- every URL that ends the process is yet to be sent or just received -/
  fatal_acct : (fatalsOf net (urls.drop (s.main.sent urls.length))).length
      + (s.workers.map (WorkerPc.fatalPend net)).sum = (fatalsOf net urls).length
  /-- the wait-group counter counts the workers that have not returned -/
  wg_live : s.wg = (s.workers.map WorkerPc.live).sum + (match s.main with | .go _ => 1 | _ => 0)
  /-- no worker returns before the channel is closed -/
  open_live : s.closed = false → ∀ pc ∈ s.workers, pc ≠ .finished
  phase : Phase urls s
  /-- the process ends only on a URL that `crawl` is fatal on -/
  exit_fatal : s.exited = true → 0 < (fatalsOf net urls).length

/-! ## Sample inputs -/

/-- A job page with one node per selector. -/
def docEngineer : Document :=
  ⟨fun sel =>
    if sel = titleSelector then ["Engineer"]
    else if sel = locationSelector then ["Remote"]
    else if sel = companySelector then ["Acme"]
    else []⟩

/-- A page on which the title selector matches two nodes and the others none. -/
def docTwoTitles : Document :=
  ⟨fun sel => if sel = titleSelector then ["Junior", "Senior"] else []⟩

/-- A page on which no selector matches. -/
def docBare : Document := ⟨fun _ => []⟩

/-- A site: `a` is the job page, `two` and `bare` the other sample pages, `gone` answers
404, `garbled` answers 200 with a body that cannot be read, anything else does not connect. -/
def siteNet : Net := fun url =>
  if url = "https://site/a" then some ⟨200, some docEngineer⟩
  else if url = "https://site/two" then some ⟨200, some docTwoTitles⟩
  else if url = "https://site/bare" then some ⟨200, some docBare⟩
  else if url = "https://site/gone" then some ⟨404, some docBare⟩
  else if url = "https://site/garbled" then some ⟨200, none⟩
  else none

/-- The batch of two: the job page, and a URL that does not connect. -/
def batchAB : List String := ["https://site/a", "https://site/b"]

/-- The start of every schedule: ten times `wg.Add(1)` and `go`, then the loop test fails. -/
def schedSpawn : List Action := List.replicate 21 .main

/-- The end of every schedule: `close(jobs)`, each worker finds the channel closed and
returns, `wg.Wait()` returns, the aggregate is read. -/
def schedDrain : List Action :=
  [.main, .work 0, .work 1, .work 2, .work 3, .work 4, .work 5, .work 6, .work 7, .work 8,
   .work 9, .main, .main]

/-- Worker `w` receives a URL and runs `crawl` to its end, appending a record. -/
def schedCrawl (w : Nat) : List Action :=
  [.deliver w, .work w, .work w, .work w, .work w, .work w]

/-- A schedule of `batchAB`: worker 0 takes both URLs. -/
def schedAB : List Action :=
  schedSpawn ++ schedCrawl 0 ++ [.deliver 0, .work 0] ++ schedDrain

/-- The record of the job page. -/
def recEngineer : response :=
  { Title := "Engineer", Location := "Remote", Company := "Acme", Url := "https://site/a" }

/-- The state in which `schedAB` leaves `batchAB`: the reply holds the one record. -/
def replyAB : State :=
  { main := .done [recEngineer], closed := true, wg := 0,
    results := { array := [recEngineer], mux := false },
    workers := List.replicate 10 .finished, exited := false }

/-- A schedule of `batchAB` that stops when worker 0 has read the aggregate and is about
to write it back with the record of the job page appended. -/
def schedStore : List Action :=
  schedSpawn ++ [.deliver 0, .work 0, .work 0, .work 0]

/-- The state in which `schedStore` leaves `batchAB`. -/
def midStore : State :=
  { main := .send 1, closed := false, wg := 10,
    results := { array := [], mux := true },
    workers := .store recEngineer [] :: List.replicate 9 .recv, exited := false }

/-- The state after the start-up loop, whatever the batch. -/
def spawned : State :=
  { main := .send 0, closed := false, wg := 10, results := {},
    workers := List.replicate 10 .recv, exited := false }

/-- A batch with a URL that answers 404. -/
def batchGone : List String := ["https://site/a", "https://site/gone"]

/-- A batch with a URL whose body cannot be read. -/
def batchGarbled : List String := ["https://site/garbled", "https://site/a"]

/-- A batch with a URL that does not connect and one whose body cannot be read. -/
def batchMixed : List String := ["https://site/a", "https://site/b", "https://site/garbled"]

/-- Worker 0 takes the job page and then the second URL of the batch. -/
def schedSecond : List Action :=
  schedSpawn ++ schedCrawl 0 ++ [.deliver 0, .work 0]

/-- Worker 3 takes the first URL of the batch. -/
def schedFirst : List Action :=
  schedSpawn ++ [.deliver 3, .work 3]

/-- Worker 0 takes the job page, worker 1 the URL that does not connect, worker 2 the
third URL. -/
def schedThird : List Action :=
  schedSpawn ++ schedCrawl 0 ++ [.deliver 1, .work 1, .deliver 2, .work 2]

/-! ## Theorems: extract and crawl -/

theorem foldl_last (l : List String) (d : String) (h : l ≠ []) :
    l.foldl (fun _ s => s) d = l.getLast h := by
  induction l generalizing d with
  | nil => exact absurd rfl h
  | cons a l ih =>
    cases l with
    | nil => rfl
    | cons b l => rw [List.foldl_cons, ih a (List.cons_ne_nil b l)]; simp

theorem foldl_Title (l : List String) (r : response) :
    l.foldl (fun (r : response) s => { r with Title := s }) r
      = { r with Title := l.foldl (fun _ s => s) r.Title } := by
  induction l generalizing r with
  | nil => rfl
  | cons a l ih => rw [List.foldl_cons, ih]; rfl

theorem foldl_Location (l : List String) (r : response) :
    l.foldl (fun (r : response) s => { r with Location := s }) r
      = { r with Location := l.foldl (fun _ s => s) r.Location } := by
  induction l generalizing r with
  | nil => rfl
  | cons a l ih => rw [List.foldl_cons, ih]; rfl

theorem foldl_Company (l : List String) (r : response) :
    l.foldl (fun (r : response) s => { r with Company := s }) r
      = { r with Company := l.foldl (fun _ s => s) r.Company } := by
  induction l generalizing r with
  | nil => rfl
  | cons a l ih => rw [List.foldl_cons, ih]; rfl

/-- Each field of the extracted record is what the last assignment of its loop left. -/
theorem extract_eq (doc : Document) (url : String) :
    extract doc url =
      { Title := (doc.Find titleSelector).foldl (fun _ s => s) "",
        Location := (doc.Find locationSelector).foldl (fun _ s => s) "",
        Company := (doc.Find companySelector).foldl (fun _ s => s) "",
        Url := url } := by
  simp only [extract, foldl_Title, foldl_Location, foldl_Company]

theorem extract_Url (doc : Document) (url : String) : (extract doc url).Url = url := by
  rw [extract_eq]

theorem fetch_ok (net : Net) (url : String) (doc : Document)
    (h : net url = some ⟨200, some doc⟩) : fetch net url = .record (extract doc url) := by
  simp [fetch, h]

theorem fetch_record_Url (net : Net) (url : String) (res : response)
    (h : fetch net url = .record res) : res.Url = url := by
  unfold fetch at h
  split at h
  · cases h
  · split at h
    · cases h
    · split at h
      · cases h
      · cases h; exact extract_Url _ _

theorem crawl_ok (net : Net) (url : String) (results : SafeResponseArray) (doc : Document)
    (h : net url = some ⟨200, some doc⟩) :
    crawl net url results
      = .returned { array := results.array ++ [extract doc url], mux := false } := by
  simp [crawl, fetch_ok net url doc h]

/-! ## Theorems: the moves -/

theorem step_sound {urls : List String} {net : Net} {a : Action} {s s' : State}
    (h : step urls net a s = some s') : s.exited = false ∧ Step urls net s s' := by
  unfold step at h
  split at h
  · cases h
  · rename_i hex
    refine ⟨by simpa using hex, ?_⟩
    cases a with
    | main =>
      simp only [handler_get_jobs_step] at h
      split at h
      · split at h
        · cases h; exact .add _ ‹_› ‹_›
        · cases h; exact .spawned _ ‹_› ‹_›
      · cases h; exact .go _ ‹_›
      · split at h
        · cases h
        · cases h; exact .close _ ‹_› ‹_›
      · split at h
        · cases h; exact .wait ‹_› ‹_›
        · cases h
      · cases h; exact .read ‹_›
      · cases h
    | deliver w =>
      simp only [deliver_step] at h
      split at h
      · split at h
        · cases h; exact .deliver _ _ _ ‹_› ‹_› ‹_›
        · cases h
      · cases h
    | work w =>
      simp only [worker_crawl_step] at h
      split at h
      · split at h
        · split at h
          · cases h; exact .panic w ‹_› ‹_› ‹_›
          · cases h; exact .finish w ‹_› ‹_› ‹_›
        · cases h
      · split at h
        · cases h; exact .drop w _ ‹_› ‹_›
        · cases h; exact .fatal w _ ‹_› ‹_›
        · cases h; exact .fetched w _ _ ‹_› ‹_›
      · split at h
        · cases h
        · cases h; exact .lock w _ ‹_› ((Bool.not_eq_true _).mp ‹_›)
      · cases h; exact .load w _ ‹_›
      · cases h; exact .store w _ _ ‹_›
      · cases h; exact .unlock w ‹_›
      · cases h
      · cases h

/-! ## Theorems: lists of workers -/

theorem getElem?_set_cases {l : List WorkerPc} {w j : Nat} {y pc : WorkerPc}
    (h : (l.set w y)[j]? = some pc) : (j = w ∧ pc = y) ∨ (j ≠ w ∧ l[j]? = some pc) := by
  rw [List.getElem?_set] at h
  split at h
  · rename_i hwj
    split at h
    · exact .inl ⟨hwj.symm, (Option.some.inj h).symm⟩
    · cases h
  · rename_i hwj
    exact .inr ⟨fun e => hwj e.symm, h⟩

theorem getElem?_set_other {l : List WorkerPc} {w j : Nat} {y pc : WorkerPc}
    (h : l[j]? = some pc) (hne : j ≠ w) : (l.set w y)[j]? = some pc := by
  rw [List.getElem?_set_ne (fun e => hne e.symm)]; exact h

theorem getElem?_set_same {l : List WorkerPc} {w : Nat} {x y : WorkerPc}
    (h : l[w]? = some x) : (l.set w y)[w]? = some y := by
  obtain ⟨hlt, _⟩ := List.getElem?_eq_some_iff.mp h
  exact List.getElem?_set_self hlt

theorem getElem?_snoc_cases {l : List WorkerPc} {j : Nat} {x pc : WorkerPc}
    (h : (l ++ [x])[j]? = some pc) : l[j]? = some pc ∨ pc = x := by
  rw [List.getElem?_append] at h
  split at h
  · exact .inl h
  · right
    obtain ⟨_, h2⟩ := List.getElem?_eq_some_iff.mp h
    simpa using h2.symm

theorem getElem?_snoc_old {l : List WorkerPc} {j : Nat} {x pc : WorkerPc}
    (h : l[j]? = some pc) : (l ++ [x])[j]? = some pc := by
  obtain ⟨hlt, _⟩ := List.getElem?_eq_some_iff.mp h
  rw [List.getElem?_append_left hlt]; exact h

theorem sum_map_set {M : Type} [AddCommMonoid M] (f : WorkerPc → M) :
    ∀ (l : List WorkerPc) (w : Nat) (x y : WorkerPc), l[w]? = some x →
      ((l.set w y).map f).sum + f x = (l.map f).sum + f y
  | [], w, x, y, h => by simp at h
  | a :: l, 0, x, y, h => by
    simp only [List.getElem?_cons_zero, Option.some.injEq] at h
    subst h
    simp only [List.set_cons_zero, List.map_cons, List.sum_cons]
    rw [add_comm (f y), add_assoc, add_comm (f a), add_assoc, add_comm (f y)]
  | a :: l, w + 1, x, y, h => by
    simp only [List.getElem?_cons_succ] at h
    simp only [List.set_cons_succ, List.map_cons, List.sum_cons, add_assoc]
    rw [sum_map_set f l w x y h]


/-! ## Theorems: the mutex -/

theorem Step.cs_locked {urls : List String} {net : Net} {s s' : State}
    (inv : Inv urls net s) (h : Step urls net s s') :
    ∀ (w : Nat) (pc : WorkerPc), s'.workers[w]? = some pc → pc.inCS = true →
      s'.results.mux = true := by
  intro j pc hj hcs
  cases h with
  | add | spawned | close | wait | read | panic | fatal => exact inv.cs_locked j pc hj hcs
  | go i hm =>
    rcases getElem?_snoc_cases hj with h | h
    · exact inv.cs_locked j pc h hcs
    · subst h; cases hcs
  | deliver w k url hm hw hu =>
    rcases getElem?_set_cases hj with ⟨_, h⟩ | ⟨_, h⟩
    · subst h; cases hcs
    · exact inv.cs_locked j pc h hcs
  | finish w hw | drop w url hw | fetched w url res hw =>
    rcases getElem?_set_cases hj with ⟨_, h⟩ | ⟨_, h⟩
    · subst h; cases hcs
    · exact inv.cs_locked j pc h hcs
  | lock w res hw hmux => rfl
  | load w res hw => exact inv.cs_locked w _ hw rfl
  | store w res tmp hw => exact inv.cs_locked w _ hw rfl
  | unlock w hw =>
    rcases getElem?_set_cases hj with ⟨_, h⟩ | ⟨hne, h⟩
    · subst h; cases hcs
    · exact absurd (inv.cs_unique j w pc _ h hw hcs rfl) hne

theorem Step.cs_unique {urls : List String} {net : Net} {s s' : State}
    (inv : Inv urls net s) (h : Step urls net s s') :
    ∀ (w w' : Nat) (pc pc' : WorkerPc), s'.workers[w]? = some pc → s'.workers[w']? = some pc' →
      pc.inCS = true → pc'.inCS = true → w = w' := by
  intro j j' pc pc' hj hj' hcs hcs'
  have old : ∀ {a b : Nat} {p q : WorkerPc}, s.workers[a]? = some p → s.workers[b]? = some q →
      p.inCS = true → q.inCS = true → a = b := fun ha hb hp hq => inv.cs_unique _ _ _ _ ha hb hp hq
  have free : s.results.mux = false → ∀ {a : Nat} {p : WorkerPc}, s.workers[a]? = some p →
      p.inCS = true → False := fun hm a p ha hp => by
    have := inv.cs_locked a p ha hp
    rw [hm] at this; cases this
  cases h with
  | add | spawned | close | wait | read | panic | fatal => exact old hj hj' hcs hcs'
  | go i hm =>
    rcases getElem?_snoc_cases hj with h | h
    · rcases getElem?_snoc_cases hj' with h' | h'
      · exact old h h' hcs hcs'
      · subst h'; cases hcs'
    · subst h; cases hcs
  | deliver w k url hm hw hu =>
    rcases getElem?_set_cases hj with ⟨_, h⟩ | ⟨_, h⟩
    · subst h; cases hcs
    · rcases getElem?_set_cases hj' with ⟨_, h'⟩ | ⟨_, h'⟩
      · subst h'; cases hcs'
      · exact old h h' hcs hcs'
  | finish w hw | drop w url hw | fetched w url res hw =>
    rcases getElem?_set_cases hj with ⟨_, h⟩ | ⟨_, h⟩
    · subst h; cases hcs
    · rcases getElem?_set_cases hj' with ⟨_, h'⟩ | ⟨_, h'⟩
      · subst h'; cases hcs'
      · exact old h h' hcs hcs'
  | lock w res hw hmux =>
    rcases getElem?_set_cases hj with ⟨e, _⟩ | ⟨_, h⟩
    · rcases getElem?_set_cases hj' with ⟨e', _⟩ | ⟨_, h'⟩
      · rw [e, e']
      · exact (free hmux h' hcs').elim
    · exact (free hmux h hcs).elim
  | load w res hw | store w res tmp hw | unlock w hw =>
    rcases getElem?_set_cases hj with ⟨e, _⟩ | ⟨_, h⟩
    · rcases getElem?_set_cases hj' with ⟨e', _⟩ | ⟨_, h'⟩
      · rw [e, e']
      · rw [e]; exact old hw h' rfl hcs'
    · rcases getElem?_set_cases hj' with ⟨e', _⟩ | ⟨_, h'⟩
      · rw [e']; exact old h hw hcs rfl
      · exact old h h' hcs hcs'

theorem Step.locked_cs {urls : List String} {net : Net} {s s' : State}
    (inv : Inv urls net s) (h : Step urls net s s') :
    s'.results.mux = true →
      ∃ (w : Nat) (pc : WorkerPc), s'.workers[w]? = some pc ∧ pc.inCS = true := by
  intro hmux
  have moved : ∀ {w : Nat} {x y : WorkerPc}, s.results.mux = true → s.workers[w]? = some x →
      x.inCS = false →
      ∃ (j : Nat) (pc : WorkerPc), (s.workers.set w y)[j]? = some pc ∧ pc.inCS = true := by
    intro w x y hm hw hx
    obtain ⟨j, pc, hj, hcs⟩ := inv.locked_cs hm
    refine ⟨j, pc, getElem?_set_other hj ?_, hcs⟩
    intro e; subst e
    rw [hw] at hj; cases hj
    rw [hx] at hcs; cases hcs
  cases h with
  | add | spawned | close | wait | read | panic | fatal => exact inv.locked_cs hmux
  | go i hm =>
    obtain ⟨j, pc, hj, hcs⟩ := inv.locked_cs hmux
    exact ⟨j, pc, getElem?_snoc_old hj, hcs⟩
  | deliver w k url hm hw hu => exact moved hmux hw rfl
  | finish w hw | drop w url hw | fetched w url res hw => exact moved hmux hw rfl
  | lock w res hw _ => exact ⟨w, _, getElem?_set_same hw, rfl⟩
  | load w res hw => exact ⟨w, _, getElem?_set_same hw, rfl⟩
  | store w res tmp hw => exact ⟨w, _, getElem?_set_same hw, rfl⟩
  | unlock w hw => cases hmux

theorem Step.store_tmp {urls : List String} {net : Net} {s s' : State}
    (inv : Inv urls net s) (h : Step urls net s s') :
    ∀ (w : Nat) (res : response) (tmp : List response),
      s'.workers[w]? = some (.store res tmp) → tmp = s'.results.array := by
  intro j r t hj
  cases h with
  | add | spawned | close | wait | read | panic | fatal => exact inv.store_tmp j r t hj
  | go i hm =>
    rcases getElem?_snoc_cases hj with h | h
    · exact inv.store_tmp j r t h
    · cases h
  | deliver w k url hm hw hu =>
    rcases getElem?_set_cases hj with ⟨_, h⟩ | ⟨_, h⟩
    · cases h
    · exact inv.store_tmp j r t h
  | finish w hw | drop w url hw | fetched w url res hw | lock w res hw | unlock w hw =>
    rcases getElem?_set_cases hj with ⟨_, h⟩ | ⟨_, h⟩
    · cases h
    · exact inv.store_tmp j r t h
  | load w res hw =>
    rcases getElem?_set_cases hj with ⟨_, h⟩ | ⟨_, h⟩
    · cases h; rfl
    · exact inv.store_tmp j r t h
  | store w res tmp hw =>
    rcases getElem?_set_cases hj with ⟨_, h⟩ | ⟨hne, h⟩
    · cases h
    · exact absurd (inv.cs_unique j w _ _ h hw rfl rfl) hne


/-! ## Theorems: every record is accounted for -/

theorem recordsOf_cons (net : Net) (url : String) (l : List String) :
    recordsOf net (url :: l) = recordsOf net [url] ++ recordsOf net l := by
  simp only [recordsOf, List.filterMap_cons, List.filterMap_nil]
  cases recordOf net url <;> rfl

theorem recordsOf_drop (net : Net) {urls : List String} {k : Nat} {url : String}
    (h : urls[k]? = some url) :
    ((recordsOf net (urls.drop k) : List response) : Multiset response)
      = (recordsOf net [url] : List response) + (recordsOf net (urls.drop (k + 1)) : List response) := by
  obtain ⟨hlt, he⟩ := List.getElem?_eq_some_iff.mp h
  rw [List.drop_eq_getElem_cons hlt, he, recordsOf_cons, Multiset.coe_add]

theorem fatalsOf_cons (net : Net) (url : String) (l : List String) :
    (fatalsOf net (url :: l)).length = (fatalsOf net [url]).length + (fatalsOf net l).length := by
  simp only [fatalsOf, List.filter_cons, List.filter_nil]
  split <;> simp [Nat.add_comm]

theorem fatalsOf_drop (net : Net) {urls : List String} {k : Nat} {url : String}
    (h : urls[k]? = some url) :
    (fatalsOf net (urls.drop k)).length
      = (fatalsOf net [url]).length + (fatalsOf net (urls.drop (k + 1))).length := by
  obtain ⟨hlt, he⟩ := List.getElem?_eq_some_iff.mp h
  rw [List.drop_eq_getElem_cons hlt, he, fatalsOf_cons]

theorem recordsOf_single_record {net : Net} {url : String} {res : response}
    (h : fetch net url = .record res) : recordsOf net [url] = [res] := by
  simp [recordsOf, recordOf, h]

theorem recordsOf_single_dropped {net : Net} {url : String}
    (h : fetch net url = .dropped) : recordsOf net [url] = [] := by
  simp [recordsOf, recordOf, h]

theorem fatalsOf_single_record {net : Net} {url : String} {res : response}
    (h : fetch net url = .record res) : fatalsOf net [url] = [] := by
  simp [fatalsOf, h]

theorem fatalsOf_single_dropped {net : Net} {url : String}
    (h : fetch net url = .dropped) : fatalsOf net [url] = [] := by
  simp [fatalsOf, h]

theorem fatalsOf_single_fatal {net : Net} {url : String}
    (h : fetch net url = .fatal) : fatalsOf net [url] = [url] := by
  simp [fatalsOf, h]

theorem drop_past {urls : List String} {k : Nat} (h : ¬ k < urls.length) :
    urls.drop k = urls.drop urls.length := by
  rw [List.drop_length, List.drop_eq_nil_of_le (Nat.le_of_not_lt h)]

theorem Step.acct {urls : List String} {net : Net} {s s' : State}
    (inv : Inv urls net s) (h : Step urls net s s') :
    (s'.results.array : Multiset response) + (s'.workers.map (WorkerPc.pend net)).sum
      + (recordsOf net (urls.drop (s'.main.sent urls.length)) : List response)
      = (recordsOf net urls : List response) := by
  have old := inv.acct
  have moved := fun w x y => sum_map_set (WorkerPc.pend net) s.workers w x y
  cases h with
  | add i hm hi => rw [hm] at old; exact old
  | spawned i hm hi => rw [hm] at old; exact old
  | go i hm =>
    rw [hm] at old
    simpa [MainPc.sent, WorkerPc.pend] using old
  | close k hm hk =>
    rw [hm] at old
    simp only [MainPc.sent] at old ⊢
    rw [← drop_past hk]; exact old
  | wait hm => rw [hm] at old; exact old
  | read hm => rw [hm] at old; exact old
  | panic | fatal => exact old
  | deliver w k url hm hw hu =>
    rw [hm] at old
    have hs := moved w _ (.crawl url) hw
    simp only [WorkerPc.pend, add_zero] at hs
    simp only [MainPc.sent] at old ⊢
    rw [recordsOf_drop net hu] at old
    rw [hs, ← old]
    abel
  | finish w hw hc hwg =>
    have hs := moved w _ .finished hw
    simp only [WorkerPc.pend, add_zero] at hs
    simp only []
    rw [hs]; exact old
  | drop w url hw hf =>
    have hs := moved w _ .recv hw
    simp only [WorkerPc.pend, recordsOf_single_dropped hf, add_zero, Multiset.coe_nil] at hs
    simp only []
    rw [hs]; exact old
  | fetched w url res hw hf =>
    have hs := moved w _ (.lock res) hw
    simp only [WorkerPc.pend, recordsOf_single_record hf, Multiset.coe_singleton] at hs
    simp only []
    rw [add_right_cancel hs]; exact old
  | lock w res hw hmux =>
    have hs := moved w _ (.load res) hw
    simp only [WorkerPc.pend] at hs
    simp only []
    rw [add_right_cancel hs]; exact old
  | load w res hw =>
    have hs := moved w _ (.store res s.results.array) hw
    simp only [WorkerPc.pend] at hs
    simp only []
    rw [add_right_cancel hs]; exact old
  | store w res tmp hw =>
    have hs := moved w _ .unlock hw
    simp only [WorkerPc.pend, add_zero] at hs
    have ht := inv.store_tmp w res tmp hw
    subst ht
    simp only []
    rw [← old, ← hs, ← Multiset.coe_singleton, ← Multiset.coe_add]
    simp only [Multiset.coe_add, Multiset.coe_singleton]
    abel
  | unlock w hw =>
    have hs := moved w _ .recv hw
    simp only [WorkerPc.pend, add_zero] at hs
    simp only []
    rw [hs]; exact old


theorem le_sum_map (f : WorkerPc → Nat) :
    ∀ (l : List WorkerPc) (w : Nat) (x : WorkerPc), l[w]? = some x → f x ≤ (l.map f).sum
  | [], w, x, h => by simp at h
  | a :: l, 0, x, h => by
    simp only [List.getElem?_cons_zero, Option.some.injEq] at h
    subst h
    simp only [List.map_cons, List.sum_cons]
    exact Nat.le_add_right _ _
  | a :: l, w + 1, x, h => by
    simp only [List.getElem?_cons_succ] at h
    simp only [List.map_cons, List.sum_cons]
    exact Nat.le_trans (le_sum_map f l w x h) (Nat.le_add_left _ _)

theorem all_finished_of_live_zero :
    ∀ (l : List WorkerPc), (l.map WorkerPc.live).sum = 0 → ∀ pc ∈ l, pc = .finished
  | [], _, pc, hpc => by cases hpc
  | a :: l, h, pc, hpc => by
    simp only [List.map_cons, List.sum_cons, Nat.add_eq_zero] at h
    rcases List.mem_cons.mp hpc with e | e
    · subst e
      cases pc <;> first | rfl | (exact absurd h.1 (by simp [WorkerPc.live]))
    · exact all_finished_of_live_zero l h.2 pc e

theorem sum_zero_of_all_finished {M : Type} [AddCommMonoid M] (f : WorkerPc → M)
    (hf : f .finished = 0) :
    ∀ (l : List WorkerPc), (∀ pc ∈ l, pc = .finished) → (l.map f).sum = 0
  | [], _ => rfl
  | a :: l, h => by
    simp only [List.map_cons, List.sum_cons]
    rw [h a (List.mem_cons_self _ _), hf,
      sum_zero_of_all_finished f hf l (fun pc hpc => h pc (List.mem_cons_of_mem _ hpc)), add_zero]

theorem Step.fatal_acct {urls : List String} {net : Net} {s s' : State}
    (inv : Inv urls net s) (h : Step urls net s s') :
    (fatalsOf net (urls.drop (s'.main.sent urls.length))).length
      + (s'.workers.map (WorkerPc.fatalPend net)).sum = (fatalsOf net urls).length := by
  have old := inv.fatal_acct
  have moved := fun w x y => sum_map_set (WorkerPc.fatalPend net) s.workers w x y
  cases h with
  | add i hm hi => rw [hm] at old; exact old
  | spawned i hm hi => rw [hm] at old; exact old
  | go i hm =>
    rw [hm] at old
    simpa [MainPc.sent, WorkerPc.fatalPend] using old
  | close k hm hk =>
    rw [hm] at old
    simp only [MainPc.sent] at old ⊢
    rw [← drop_past hk]; exact old
  | wait hm => rw [hm] at old; exact old
  | read hm => rw [hm] at old; exact old
  | panic | fatal => exact old
  | deliver w k url hm hw hu =>
    rw [hm] at old
    have hs := moved w _ (.crawl url) hw
    simp only [WorkerPc.fatalPend, add_zero] at hs
    simp only [MainPc.sent] at old ⊢
    rw [fatalsOf_drop net hu] at old
    omega
  | finish w hw hc hwg =>
    have hs := moved w _ .finished hw
    simp only [WorkerPc.fatalPend, add_zero] at hs
    simp only []
    rw [hs]; exact old
  | drop w url hw hf =>
    have hs := moved w _ .recv hw
    simp only [WorkerPc.fatalPend, fatalsOf_single_dropped hf, add_zero, List.length_nil] at hs
    simp only []
    rw [hs]; exact old
  | fetched w url res hw hf =>
    have hs := moved w _ (.lock res) hw
    simp only [WorkerPc.fatalPend, fatalsOf_single_record hf, add_zero, List.length_nil] at hs
    simp only []
    rw [hs]; exact old
  | lock w res hw hmux =>
    have hs := moved w _ (.load res) hw
    simp only [WorkerPc.fatalPend, add_zero] at hs
    simp only []
    rw [hs]; exact old
  | load w res hw =>
    have hs := moved w _ (.store res s.results.array) hw
    simp only [WorkerPc.fatalPend, add_zero] at hs
    simp only []
    rw [hs]; exact old
  | store w res tmp hw =>
    have hs := moved w _ .unlock hw
    simp only [WorkerPc.fatalPend, add_zero] at hs
    simp only []
    rw [hs]; exact old
  | unlock w hw =>
    have hs := moved w _ .recv hw
    simp only [WorkerPc.fatalPend, add_zero] at hs
    simp only []
    rw [hs]; exact old

theorem Step.wg_live {urls : List String} {net : Net} {s s' : State}
    (inv : Inv urls net s) (h : Step urls net s s') :
    s'.wg = (s'.workers.map WorkerPc.live).sum
      + (match s'.main with | .go _ => 1 | _ => 0) := by
  have old := inv.wg_live
  have moved := fun w x y => sum_map_set WorkerPc.live s.workers w x y
  cases h with
  | add i hm hi => rw [hm] at old; simp only [] at old ⊢; omega
  | spawned i hm hi => rw [hm] at old; exact old
  | go i hm =>
    rw [hm] at old
    simp only [List.map_append, List.sum_append, List.map_cons, List.map_nil, List.sum_cons,
      List.sum_nil, WorkerPc.live] at old ⊢
    omega
  | close k hm hk => rw [hm] at old; exact old
  | wait hm => rw [hm] at old; exact old
  | read hm => rw [hm] at old; exact old
  | panic | fatal => exact old
  | deliver w k url hm hw hu =>
    rw [hm] at old
    have hs := moved w _ (.crawl url) hw
    simp only [WorkerPc.live] at hs old ⊢
    omega
  | finish w hw hc hwg =>
    have hs := moved w _ .finished hw
    simp only [WorkerPc.live] at hs ⊢
    omega
  | drop w url hw hf =>
    have hs := moved w _ .recv hw
    simp only [WorkerPc.live] at hs ⊢
    omega
  | fetched w url res hw hf =>
    have hs := moved w _ (.lock res) hw
    simp only [WorkerPc.live] at hs ⊢
    omega
  | lock w res hw hmux =>
    have hs := moved w _ (.load res) hw
    simp only [WorkerPc.live] at hs ⊢
    omega
  | load w res hw =>
    have hs := moved w _ (.store res s.results.array) hw
    simp only [WorkerPc.live] at hs ⊢
    omega
  | store w res tmp hw =>
    have hs := moved w _ .unlock hw
    simp only [WorkerPc.live] at hs ⊢
    omega
  | unlock w hw =>
    have hs := moved w _ .recv hw
    simp only [WorkerPc.live] at hs ⊢
    omega

theorem Step.open_live {urls : List String} {net : Net} {s s' : State}
    (inv : Inv urls net s) (h : Step urls net s s') :
    s'.closed = false → ∀ pc ∈ s'.workers, pc ≠ .finished := by
  intro hcl pc hpc
  have old := inv.open_live
  have moved : ∀ {w : Nat} {y : WorkerPc}, s.closed = false → y ≠ .finished →
      pc ∈ s.workers.set w y → pc ≠ .finished := by
    intro w y hc hy hmem
    rcases List.mem_or_eq_of_mem_set hmem with h | h
    · exact old hc pc h
    · rw [h]; exact hy
  cases h with
  | add | spawned | wait | read | panic | fatal => exact old hcl pc hpc
  | go i hm =>
    rcases List.mem_append.mp hpc with h | h
    · exact old hcl pc h
    · rw [List.mem_singleton.mp h]; exact WorkerPc.noConfusion
  | close k hm hk => cases hcl
  | finish w hw hc hwg => simp only [] at hcl; rw [hc] at hcl; cases hcl
  | deliver w k url hm hw hu => exact moved hcl WorkerPc.noConfusion hpc
  | drop w url hw hf => exact moved hcl WorkerPc.noConfusion hpc
  | fetched w url res hw hf => exact moved hcl WorkerPc.noConfusion hpc
  | lock w res hw hmux => exact moved hcl WorkerPc.noConfusion hpc
  | load w res hw => exact moved hcl WorkerPc.noConfusion hpc
  | store w res tmp hw => exact moved hcl WorkerPc.noConfusion hpc
  | unlock w hw => exact moved hcl WorkerPc.noConfusion hpc


/-! ## Theorems: the handler and its workers -/

theorem Phase.worker_move {urls : List String} {s s' : State} (ph : Phase urls s)
    {w : Nat} {x y : WorkerPc} (hw : s.workers[w]? = some x) (hx : x ≠ .finished)
    (hrecv : x = .recv → s.closed = true) (hmain : s'.main = s.main)
    (hclosed : s'.closed = s.closed) (hworkers : s'.workers = s.workers.set w y) :
    Phase urls s' := by
  have hmem : x ∈ s.workers := List.mem_iff_getElem?.mpr ⟨w, hw⟩
  unfold Phase at ph ⊢
  rw [hmain, hclosed, hworkers]
  cases hm : s.main with
  | add i =>
    rw [hm] at ph
    obtain ⟨_, _, _, hc, hall⟩ := ph
    rw [hrecv (hall x hmem)] at hc; cases hc
  | go i =>
    rw [hm] at ph
    obtain ⟨_, _, _, hc, hall⟩ := ph
    rw [hrecv (hall x hmem)] at hc; cases hc
  | send k =>
    rw [hm] at ph
    simpa using ph
  | wait =>
    rw [hm] at ph
    simpa using ph
  | read =>
    rw [hm] at ph
    exact absurd (ph.2.2 x hmem) hx
  | done out =>
    rw [hm] at ph
    exact absurd (ph.2.2.1 x hmem) hx

theorem Step.phase {urls : List String} {net : Net} {s s' : State}
    (inv : Inv urls net s) (h : Step urls net s s') : Phase urls s' := by
  have ph := inv.phase
  cases h with
  | add i hm hi =>
    unfold Phase at ph ⊢
    rw [hm] at ph
    exact ⟨ph.1, hi, ph.2.2⟩
  | spawned i hm hi =>
    unfold Phase at ph ⊢
    rw [hm] at ph
    obtain ⟨h1, h2, h3, h4, _⟩ := ph
    refine ⟨Nat.zero_le _, ?_, h4⟩
    show s.workers.length = 10
    omega
  | go i hm =>
    unfold Phase at ph ⊢
    rw [hm] at ph
    obtain ⟨h1, h2, h3, h4, h5⟩ := ph
    refine ⟨by omega, by omega, ?_, h4, ?_⟩
    · show (s.workers ++ [WorkerPc.recv]).length = i + 1 - 1
      rw [List.length_append, h3, List.length_singleton]
      omega
    · intro pc hpc
      rcases List.mem_append.mp hpc with h | h
      · exact h5 pc h
      · exact List.mem_singleton.mp h
  | close k hm hk =>
    unfold Phase at ph ⊢
    rw [hm] at ph
    exact ⟨ph.2.1, rfl⟩
  | wait hm hwg =>
    unfold Phase at ph ⊢
    rw [hm] at ph
    refine ⟨ph.1, ph.2, ?_⟩
    have hl := inv.wg_live
    rw [hm, hwg] at hl
    exact all_finished_of_live_zero s.workers (by simpa using hl.symm)
  | read hm =>
    unfold Phase at ph ⊢
    rw [hm] at ph
    exact ⟨ph.1, ph.2.1, ph.2.2, rfl⟩
  | deliver w k url hm hw hu =>
    unfold Phase at ph ⊢
    rw [hm] at ph
    obtain ⟨hlt, _⟩ := List.getElem?_eq_some_iff.mp hu
    refine ⟨hlt, ?_, ph.2.2⟩
    show (s.workers.set w (WorkerPc.crawl url)).length = 10
    rw [List.length_set]; exact ph.2.1
  | panic => exact ph
  | fatal => exact ph
  | finish w hw hc hwg =>
    exact ph.worker_move hw WorkerPc.noConfusion (fun _ => hc) rfl rfl rfl
  | drop w url hw hf =>
    exact ph.worker_move hw WorkerPc.noConfusion (fun e => WorkerPc.noConfusion e) rfl rfl rfl
  | fetched w url res hw hf =>
    exact ph.worker_move hw WorkerPc.noConfusion (fun e => WorkerPc.noConfusion e) rfl rfl rfl
  | lock w res hw hmux =>
    exact ph.worker_move hw WorkerPc.noConfusion (fun e => WorkerPc.noConfusion e) rfl rfl rfl
  | load w res hw =>
    exact ph.worker_move hw WorkerPc.noConfusion (fun e => WorkerPc.noConfusion e) rfl rfl rfl
  | store w res tmp hw =>
    exact ph.worker_move hw WorkerPc.noConfusion (fun e => WorkerPc.noConfusion e) rfl rfl rfl
  | unlock w hw =>
    exact ph.worker_move hw WorkerPc.noConfusion (fun e => WorkerPc.noConfusion e) rfl rfl rfl

theorem Step.exit_fatal {urls : List String} {net : Net} {s s' : State}
    (inv : Inv urls net s) (h : Step urls net s s') :
    s'.exited = true → 0 < (fatalsOf net urls).length := by
  have old := inv.exit_fatal
  cases h with
  | panic w hw hc hwg =>
    intro _
    have hl := inv.wg_live
    have := le_sum_map WorkerPc.live s.workers w _ hw
    simp only [WorkerPc.live] at this
    omega
  | fatal w url hw hf =>
    intro _
    have := le_sum_map (WorkerPc.fatalPend net) s.workers w _ hw
    simp only [WorkerPc.fatalPend, fatalsOf_single_fatal hf, List.length_singleton] at this
    have := inv.fatal_acct
    omega
  | _ => exact old

/-- Every move keeps what holds in every state. -/
theorem Step.preserves {urls : List String} {net : Net} {s s' : State}
    (inv : Inv urls net s) (h : Step urls net s s') : Inv urls net s' :=
  { cs_locked := h.cs_locked inv
    cs_unique := h.cs_unique inv
    locked_cs := h.locked_cs inv
    store_tmp := h.store_tmp inv
    acct := h.acct inv
    fatal_acct := h.fatal_acct inv
    wg_live := h.wg_live inv
    open_live := h.open_live inv
    phase := h.phase inv
    exit_fatal := h.exit_fatal inv }

theorem init_inv (urls : List String) (net : Net) : Inv urls net init :=
  { cs_locked := fun w pc h _ => by simp [init] at h
    cs_unique := fun w w' pc pc' h _ _ _ => by simp [init] at h
    locked_cs := fun h => by simp [init] at h
    store_tmp := fun w res tmp h => by simp [init] at h
    acct := by simp [init, MainPc.sent]
    fatal_acct := by simp [init, MainPc.sent]
    wg_live := by simp [init]
    open_live := fun _ pc h => by simp [init] at h
    phase := by simp [Phase, init]
    exit_fatal := fun h => by simp [init] at h }

theorem run_inv {urls : List String} {net : Net} :
    ∀ (sched : List Action) {s s' : State}, Inv urls net s → run urls net sched s = some s' →
      Inv urls net s'
  | [], s, s', inv, h => by
    simp only [run, Option.some.injEq] at h
    rw [← h]; exact inv
  | a :: sched, s, s', inv, h => by
    simp only [run] at h
    split at h
    · rename_i s1 hs1
      exact run_inv sched ((step_sound hs1).2.preserves inv) h
    · cases h

theorem Reachable.invariant {urls : List String} {net : Net} {s : State}
    (h : Reachable urls net s) : Inv urls net s := by
  obtain ⟨sched, hs⟩ := h
  exact run_inv sched (init_inv urls net) hs


/-! ## Theorems: every request comes to an end -/

theorem step_complete {urls : List String} {net : Net} {s s' : State}
    (hex : s.exited = false) (h : Step urls net s s') : ∃ a, step urls net a s = some s' := by
  cases h with
  | add i hm hi => exact ⟨.main, by simp [step, hex, handler_get_jobs_step, hm, hi]⟩
  | spawned i hm hi => exact ⟨.main, by simp [step, hex, handler_get_jobs_step, hm, hi]⟩
  | go i hm => exact ⟨.main, by simp [step, hex, handler_get_jobs_step, hm]⟩
  | close k hm hk => exact ⟨.main, by simp [step, hex, handler_get_jobs_step, hm, hk]⟩
  | wait hm hwg => exact ⟨.main, by simp [step, hex, handler_get_jobs_step, hm, hwg]⟩
  | read hm => exact ⟨.main, by simp [step, hex, handler_get_jobs_step, hm]⟩
  | deliver w k url hm hw hu => exact ⟨.deliver w, by simp [step, hex, deliver_step, hm, hw, hu]⟩
  | panic w hw hc hwg => exact ⟨.work w, by simp [step, hex, worker_crawl_step, hw, hc, hwg]⟩
  | finish w hw hc hwg => exact ⟨.work w, by simp [step, hex, worker_crawl_step, hw, hc, hwg]⟩
  | drop w url hw hf => exact ⟨.work w, by simp [step, hex, worker_crawl_step, hw, hf]⟩
  | fatal w url hw hf => exact ⟨.work w, by simp [step, hex, worker_crawl_step, hw, hf]⟩
  | fetched w url res hw hf => exact ⟨.work w, by simp [step, hex, worker_crawl_step, hw, hf]⟩
  | lock w res hw hmux => exact ⟨.work w, by simp [step, hex, worker_crawl_step, hw, hmux]⟩
  | load w res hw => exact ⟨.work w, by simp [step, hex, worker_crawl_step, hw]⟩
  | store w res tmp hw => exact ⟨.work w, by simp [step, hex, worker_crawl_step, hw]⟩
  | unlock w hw => exact ⟨.work w, by simp [step, hex, worker_crawl_step, hw]⟩

theorem Step.fuel_lt {urls : List String} {net : Net} {s s' : State}
    (inv : Inv urls net s) (hex : s.exited = false) (h : Step urls net s s') :
    s'.fuel urls < s.fuel urls := by
  have moved := fun w x y => sum_map_set WorkerPc.weight s.workers w x y
  have ph := inv.phase
  unfold Phase at ph
  unfold State.fuel
  rw [hex]
  cases h with
  | add i hm hi => simp only [hex, hm, MainPc.weight, Bool.false_eq_true, ↓reduceIte]; omega
  | spawned i hm hi => simp only [hex, hm, MainPc.weight, Bool.false_eq_true, ↓reduceIte]; omega
  | go i hm =>
    rw [hm] at ph
    simp only [hex, hm, MainPc.weight, List.map_append, List.sum_append, List.map_cons,
      List.map_nil, List.sum_cons, List.sum_nil, WorkerPc.weight, Bool.false_eq_true, ↓reduceIte]
    omega
  | close k hm hk => simp only [hex, hm, MainPc.weight, Bool.false_eq_true, ↓reduceIte]; omega
  | wait hm hwg => simp only [hex, hm, MainPc.weight, Bool.false_eq_true, ↓reduceIte]; omega
  | read hm => simp only [hex, hm, MainPc.weight, Bool.false_eq_true, ↓reduceIte]; omega
  | deliver w k url hm hw hu =>
    have hs := moved w _ (.crawl url) hw
    obtain ⟨hlt, _⟩ := List.getElem?_eq_some_iff.mp hu
    simp only [WorkerPc.weight] at hs
    simp only [hex, hm, MainPc.weight, Bool.false_eq_true, ↓reduceIte]
    omega
  | panic | fatal => simp
  | finish w hw hc hwg =>
    have hs := moved w _ .finished hw
    simp only [WorkerPc.weight] at hs
    simp only [hex, Bool.false_eq_true, ↓reduceIte]; omega
  | drop w url hw hf =>
    have hs := moved w _ .recv hw
    simp only [WorkerPc.weight] at hs
    simp only [hex, Bool.false_eq_true, ↓reduceIte]; omega
  | fetched w url res hw hf =>
    have hs := moved w _ (.lock res) hw
    simp only [WorkerPc.weight] at hs
    simp only [hex, Bool.false_eq_true, ↓reduceIte]; omega
  | lock w res hw hmux =>
    have hs := moved w _ (.load res) hw
    simp only [WorkerPc.weight] at hs
    simp only [hex, Bool.false_eq_true, ↓reduceIte]; omega
  | load w res hw =>
    have hs := moved w _ (.store res s.results.array) hw
    simp only [WorkerPc.weight] at hs
    simp only [hex, Bool.false_eq_true, ↓reduceIte]; omega
  | store w res tmp hw =>
    have hs := moved w _ .unlock hw
    simp only [WorkerPc.weight] at hs
    simp only [hex, Bool.false_eq_true, ↓reduceIte]; omega
  | unlock w hw =>
    have hs := moved w _ .recv hw
    simp only [WorkerPc.weight] at hs
    simp only [hex, Bool.false_eq_true, ↓reduceIte]; omega


theorem run_append (urls : List String) (net : Net) :
    ∀ (a b : List Action) (s : State),
      run urls net (a ++ b) s = (run urls net a s).bind (run urls net b)
  | [], b, s => rfl
  | x :: a, b, s => by
    simp only [List.cons_append, run]
    cases step urls net x s with
    | none => rfl
    | some s1 => exact run_append urls net a b s1

/-- No schedule is longer than the fuel of the state it starts from. -/
theorem run_fuel {urls : List String} {net : Net} :
    ∀ (sched : List Action) {s s' : State}, Inv urls net s → run urls net sched s = some s' →
      sched.length + s'.fuel urls ≤ s.fuel urls
  | [], s, s', _, h => by
    simp only [run, Option.some.injEq] at h
    rw [← h]; simp
  | a :: sched, s, s', inv, h => by
    simp only [run] at h
    split at h
    · rename_i s1 hs1
      obtain ⟨hex, hst⟩ := step_sound hs1
      have h1 := hst.fuel_lt inv hex
      have h2 := run_fuel sched (hst.preserves inv) h
      simp only [List.length_cons]
      omega
    · cases h

theorem exists_live_of_sum_ne_zero (l : List WorkerPc) (h : (l.map WorkerPc.live).sum ≠ 0) :
    ∃ (w : Nat) (pc : WorkerPc), l[w]? = some pc ∧ pc ≠ .finished := by
  by_contra hno
  apply h
  apply sum_zero_of_all_finished WorkerPc.live rfl
  intro pc hpc
  by_contra hne
  obtain ⟨w, hw⟩ := List.mem_iff_getElem?.mp hpc
  exact hno ⟨w, pc, hw, hne⟩

/-- A worker that has not returned can move, or waits for a URL on the open channel, or
waits for a mutex whose holder can move. -/
theorem Inv.worker_can_move {urls : List String} {net : Net} {s : State}
    (inv : Inv urls net s) {w : Nat} {pc : WorkerPc} (hw : s.workers[w]? = some pc)
    (hfin : pc ≠ .finished) (hrecv : pc = .recv → s.closed = true) :
    ∃ s', Step urls net s s' := by
  cases pc with
  | recv =>
    by_cases hwg : s.wg = 0
    · exact ⟨_, .panic w hw (hrecv rfl) hwg⟩
    · exact ⟨_, .finish w hw (hrecv rfl) hwg⟩
  | crawl url =>
    cases hf : fetch net url with
    | dropped => exact ⟨_, .drop w url hw hf⟩
    | fatal => exact ⟨_, .fatal w url hw hf⟩
    | record res => exact ⟨_, .fetched w url res hw hf⟩
  | lock res =>
    cases hmux : s.results.mux with
    | false => exact ⟨_, .lock w res hw hmux⟩
    | true =>
      obtain ⟨j, pc', hj, hcs⟩ := inv.locked_cs hmux
      cases pc' with
      | load r => exact ⟨_, .load j r hj⟩
      | store r t => exact ⟨_, .store j r t hj⟩
      | unlock => exact ⟨_, .unlock j hj⟩
      | recv | crawl | lock | finished => cases hcs
  | load res => exact ⟨_, .load w res hw⟩
  | store res tmp => exact ⟨_, .store w res tmp hw⟩
  | unlock => exact ⟨_, .unlock w hw⟩
  | finished => exact absurd rfl hfin

/-- No deadlock: as long as the process lives and the handler has not read the aggregate,
some goroutine can move. -/
theorem Inv.can_move {urls : List String} {net : Net} {s : State}
    (inv : Inv urls net s) (hnd : ∀ out, s.main ≠ .done out) :
    ∃ s', Step urls net s s' := by
  have ph := inv.phase
  unfold Phase at ph
  cases hm : s.main with
  | add i =>
    by_cases hi : i ≤ 10
    · exact ⟨_, .add i hm hi⟩
    · exact ⟨_, .spawned i hm hi⟩
  | go i => exact ⟨_, .go i hm⟩
  | send k =>
    rw [hm] at ph
    by_cases hk : k < urls.length
    · have h0 : 0 < s.workers.length := by rw [ph.2.1]; decide
      have hw : s.workers[0]? = some s.workers[0] := List.getElem?_eq_getElem h0
      have hfin := inv.open_live ph.2.2 _ (List.getElem_mem h0)
      by_cases hr : s.workers[0] = .recv
      · rw [hr] at hw
        exact ⟨_, .deliver 0 k _ hm hw (List.getElem?_eq_getElem hk)⟩
      · exact inv.worker_can_move hw hfin (fun e => absurd e hr)
    · exact ⟨_, .close k hm hk⟩
  | wait =>
    rw [hm] at ph
    by_cases hwg : s.wg = 0
    · exact ⟨_, .wait hm hwg⟩
    · have hl := inv.wg_live
      rw [hm] at hl
      obtain ⟨w, pc, hw, hfin⟩ := exists_live_of_sum_ne_zero s.workers (by simpa [hl] using hwg)
      exact inv.worker_can_move hw hfin (fun _ => ph.2)
  | read => exact ⟨_, .read hm⟩
  | done out => exact absurd hm (hnd out)

/-- From every state of a request some schedule leads to the reply or to the end of
the process. -/
theorem Inv.can_finish {urls : List String} {net : Net} :
    ∀ (n : Nat) {s : State}, Inv urls net s → s.fuel urls ≤ n →
      ∃ sched s', run urls net sched s = some s' ∧
        (s'.exited = true ∨ ∃ out, s'.main = .done out)
  | 0, s, inv, hn => by
    cases hex : s.exited with
    | true => exact ⟨[], s, rfl, .inl hex⟩
    | false =>
      unfold State.fuel at hn
      rw [hex] at hn
      simp only [Bool.false_eq_true, ↓reduceIte] at hn
      omega
  | n + 1, s, inv, hn => by
    cases hex : s.exited with
    | true => exact ⟨[], s, rfl, .inl hex⟩
    | false =>
      by_cases hd : ∃ out, s.main = .done out
      · exact ⟨[], s, rfl, .inr hd⟩
      · obtain ⟨s1, hst⟩ := inv.can_move (fun out e => hd ⟨out, e⟩)
        obtain ⟨a, ha⟩ := step_complete hex hst
        have hlt := hst.fuel_lt inv hex
        obtain ⟨sched, s', hr, hfin⟩ := Inv.can_finish n (hst.preserves inv) (by omega)
        exact ⟨a :: sched, s', by simp only [run, ha]; exact hr, hfin⟩


/-! ## Theorems: the reply -/

/-- When the handler has read the aggregate, it holds the records of the batch, each once,
and no URL of the batch is one that ends the process. -/
theorem Inv.done_output {urls : List String} {net : Net} {s : State}
    (inv : Inv urls net s) {out : List response} (hd : s.main = .done out) :
    out.Perm (recordsOf net urls) ∧ fatalsOf net urls = [] := by
  have ph := inv.phase
  unfold Phase at ph
  rw [hd] at ph
  obtain ⟨_, _, hall, hout⟩ := ph
  have ha := inv.acct
  have hf := inv.fatal_acct
  rw [hd] at ha hf
  simp only [MainPc.sent, List.drop_length] at ha hf
  rw [sum_zero_of_all_finished (WorkerPc.pend net) rfl _ hall] at ha
  rw [sum_zero_of_all_finished (WorkerPc.fatalPend net) rfl _ hall] at hf
  constructor
  · rw [hout]
    apply Multiset.coe_eq_coe.mp
    rw [← ha]
    simp [recordsOf]
  · apply List.eq_nil_of_length_eq_zero
    rw [← hf]
    simp [fatalsOf]

theorem handler_get_jobs_some {urls : List String} {net : Net} {sched : List Action}
    {out : List response} (h : handler_get_jobs urls net sched = some out) :
    ∃ s, run urls net sched init = some s ∧ s.main = .done out := by
  unfold handler_get_jobs at h
  split at h
  · rename_i s hs
    split at h
    · rename_i out' hm
      cases h
      exact ⟨s, hs, hm⟩
    · cases h
  · cases h

theorem reply_perm {urls : List String} {net : Net} {sched : List Action} {s : State}
    {out : List response} (h : run urls net sched init = some s) (hd : s.main = .done out) :
    out.Perm (recordsOf net urls) ∧ fatalsOf net urls = [] :=
  (Reachable.invariant ⟨sched, h⟩).done_output hd

/-- A batch with a URL that ends the process never gets a reply. -/
theorem never_replies {urls : List String} {net : Net} (hf : fatalsOf net urls ≠ [])
    {sched : List Action} {s : State} (h : run urls net sched init = some s) :
    ∀ out, s.main ≠ .done out :=
  fun _ hd => hf (reply_perm h hd).2

/-- A batch without such a URL never loses its process. -/
theorem no_exit {urls : List String} {net : Net} (hf : fatalsOf net urls = [])
    {sched : List Action} {s : State} (h : run urls net sched init = some s) :
    s.exited = false := by
  cases hex : s.exited with
  | false => rfl
  | true =>
    have := (Reachable.invariant ⟨sched, h⟩).exit_fatal hex
    rw [hf] at this
    cases this

/-- A state in which nothing can move is the reply or the end of the process. -/
theorem stuck_final {urls : List String} {net : Net} {sched : List Action} {s : State}
    (h : run urls net sched init = some s) (hstuck : ∀ a, step urls net a s = none) :
    s.exited = true ∨ ∃ out, s.main = .done out := by
  cases hex : s.exited with
  | true => exact .inl rfl
  | false =>
    right
    by_contra hd
    obtain ⟨s1, hst⟩ := (Reachable.invariant ⟨sched, h⟩).can_move (fun out e => hd ⟨out, e⟩)
    obtain ⟨a, ha⟩ := step_complete hex hst
    rw [hstuck a] at ha
    cases ha

theorem init_fuel (urls : List String) : init.fuel urls = 6 * urls.length + 35 := by
  simp only [State.fuel, init, MainPc.weight, List.map_nil, List.sum_nil]
  simp
  omega

/-- No schedule of a request has more than `6 * N + 35` moves. -/
theorem sched_bounded {urls : List String} {net : Net} {sched : List Action} {s : State}
    (h : run urls net sched init = some s) : sched.length ≤ 6 * urls.length + 35 := by
  have := run_fuel sched (init_inv urls net) h
  rw [init_fuel] at this
  omega

/-- Every schedule can be continued to the reply or to the end of the process. -/
theorem can_continue {urls : List String} {net : Net} {sched : List Action} {s : State}
    (h : run urls net sched init = some s) :
    ∃ more s', run urls net (sched ++ more) init = some s' ∧
      (s'.exited = true ∨ ∃ out, s'.main = .done out) := by
  obtain ⟨more, s', hr, hfin⟩ := Inv.can_finish (s.fuel urls) (Reachable.invariant ⟨sched, h⟩) (Nat.le_refl _)
  refine ⟨more, s', ?_, hfin⟩
  rw [run_append, h]
  exact hr

/-- Every record in the aggregate is the record of a URL of the batch. -/
theorem array_mem {urls : List String} {net : Net} {sched : List Action} {s : State}
    (h : run urls net sched init = some s) {res : response} (hres : res ∈ s.results.array) :
    ∃ url ∈ urls, fetch net url = .record res := by
  have ha := (Reachable.invariant ⟨sched, h⟩).acct
  have hmem : res ∈ ((recordsOf net urls : List response) : Multiset response) := by
    rw [← ha]
    exact Multiset.mem_add.mpr (.inl (Multiset.mem_add.mpr (.inl (Multiset.mem_coe.mpr hres))))
  have hmem' : res ∈ recordsOf net urls := Multiset.mem_coe.mp hmem
  obtain ⟨url, hu, hr⟩ := List.mem_filterMap.mp hmem'
  refine ⟨url, hu, ?_⟩
  unfold recordOf at hr
  split at hr
  · rename_i r hf
    cases hr
    exact hf
  · cases hr

theorem recordsOf_append (net : Net) (l₁ l₂ : List String) :
    recordsOf net (l₁ ++ l₂) = recordsOf net l₁ ++ recordsOf net l₂ := by
  simp [recordsOf, List.filterMap_append]

theorem fatalsOf_append (net : Net) (l₁ l₂ : List String) :
    fatalsOf net (l₁ ++ l₂) = fatalsOf net l₁ ++ fatalsOf net l₂ := by
  simp [fatalsOf, List.filter_append]

theorem failedOf_append (net : Net) (l₁ l₂ : List String) :
    failedOf net (l₁ ++ l₂) = failedOf net l₁ ++ failedOf net l₂ := by
  simp [failedOf, List.filter_append]

/-- The records and the failed URLs of a list add up to the list. -/
theorem recordsOf_length_add_failedOf_length (net : Net) :
    ∀ (l : List String), (recordsOf net l).length + (failedOf net l).length = l.length
  | [] => rfl
  | url :: l => by
    have ih := recordsOf_length_add_failedOf_length net l
    simp only [recordsOf, failedOf, List.filterMap_cons, List.filter_cons] at ih ⊢
    cases hr : recordOf net url with
    | none => simp only [Option.isNone_none, ↓reduceIte, List.length_cons]; omega
    | some r =>
      simp only [Option.isNone_some, Bool.false_eq_true, ↓reduceIte, List.length_cons]; omega

/-- A list of URLs that all fetch and parse has its own URLs in its records, in order,
and none of them ends the process. -/
theorem recordsOf_all_ok (net : Net) :
    ∀ (l : List String), (∀ url ∈ l, ∃ doc, net url = some ⟨200, some doc⟩) →
      (recordsOf net l).map (fun res => res.Url) = l ∧ fatalsOf net l = [] ∧
        recordsOf net l = l.map (fun url => match net url with
          | some ⟨_, some doc⟩ => extract doc url
          | _ => {})
  | [], _ => ⟨rfl, rfl, rfl⟩
  | url :: l, h => by
    obtain ⟨doc, hdoc⟩ := h url (List.mem_cons_self _ _)
    obtain ⟨ih1, ih2, ih3⟩ := recordsOf_all_ok net l (fun u hu => h u (List.mem_cons_of_mem _ hu))
    have hf := fetch_ok net url doc hdoc
    have e1 : recordsOf net (url :: l) = extract doc url :: recordsOf net l := by
      rw [recordsOf_cons, recordsOf_single_record hf]; rfl
    have e2 : fatalsOf net (url :: l) = fatalsOf net l := by
      have := fatalsOf_append net [url] l
      rw [fatalsOf_single_record hf] at this
      exact this
    refine ⟨?_, ?_, ?_⟩
    · rw [e1, List.map_cons, ih1, extract_Url]
    · rw [e2, ih2]
    · rw [e1, ih3, List.map_cons, hdoc]

/-! ## Theorems: the claims about a batch -/

/-- C2: a batch in which one URL fails to connect and all the others are fetched and parsed
never loses its process, cannot run forever or get stuck before the reply, and its reply
holds exactly one record for each of the other URLs, `N - 1` in all, whatever the schedule;
so the batch of the job page `a` and a URL `b` that does not connect is answered with the
single record of `a`. -/
theorem one_transport_error_batch :
    (∀ (net : Net) (l₁ l₂ : List String) (bad : String), net bad = none →
      (∀ url ∈ l₁ ++ l₂, ∃ doc, net url = some ⟨200, some doc⟩) →
      ∀ (sched : List Action) (s : State), run (l₁ ++ bad :: l₂) net sched init = some s →
        s.exited = false ∧ sched.length ≤ 6 * (l₁ ++ bad :: l₂).length + 35 ∧
        ((∀ a, step (l₁ ++ bad :: l₂) net a s = none) → ∃ out, s.main = .done out) ∧
        (∃ more s' out, run (l₁ ++ bad :: l₂) net (sched ++ more) init = some s' ∧
          s'.main = .done out) ∧
        ∀ out, s.main = .done out →
          out.length = (l₁ ++ bad :: l₂).length - 1 ∧
          out.Perm (recordsOf net (l₁ ++ l₂)) ∧
          (recordsOf net (l₁ ++ l₂)).map (fun res => res.Url) = l₁ ++ l₂) ∧
    (∀ (net : Net) (doc : Document), net "https://site/a" = some ⟨200, some doc⟩ →
      extract doc "https://site/a" = recEngineer → net "https://site/b" = none →
      ∀ (sched : List Action) (out : List response),
        handler_get_jobs ["https://site/a", "https://site/b"] net sched = some out →
        out = [recEngineer]) := by
  have key : ∀ (net : Net) (l₁ l₂ : List String) (bad : String), net bad = none →
      (∀ url ∈ l₁ ++ l₂, ∃ doc, net url = some ⟨200, some doc⟩) →
      recordsOf net (l₁ ++ bad :: l₂) = recordsOf net (l₁ ++ l₂) ∧
        fatalsOf net (l₁ ++ bad :: l₂) = [] ∧
        (recordsOf net (l₁ ++ l₂)).map (fun res => res.Url) = l₁ ++ l₂ := by
    intro net l₁ l₂ bad hbad hok
    have hd : fetch net bad = .dropped := by simp [fetch, hbad]
    obtain ⟨h1, h2, _⟩ := recordsOf_all_ok net (l₁ ++ l₂) hok
    refine ⟨?_, ?_, h1⟩
    · rw [recordsOf_append, recordsOf_cons, recordsOf_single_dropped hd, recordsOf_append]
      rfl
    · rw [fatalsOf_append] at h2
      have h3 := fatalsOf_append net [bad] l₂
      rw [fatalsOf_single_dropped hd] at h3
      rw [fatalsOf_append, show bad :: l₂ = [bad] ++ l₂ from rfl, h3]
      exact h2
  constructor
  · intro net l₁ l₂ bad hbad hok sched s hrun
    obtain ⟨hrec, hfat, hurl⟩ := key net l₁ l₂ bad hbad hok
    have hex := no_exit hfat hrun
    refine ⟨hex, sched_bounded hrun, ?_, ?_, ?_⟩
    · intro hstuck
      rcases stuck_final hrun hstuck with h | h
      · rw [hex] at h; cases h
      · exact h
    · obtain ⟨more, s', hr, hfin⟩ := can_continue hrun
      rcases hfin with h | ⟨out, h⟩
      · rw [no_exit hfat hr] at h; cases h
      · exact ⟨more, s', out, hr, h⟩
    · intro out hd
      have hp := (reply_perm hrun hd).1
      rw [hrec] at hp
      refine ⟨?_, hp, hurl⟩
      rw [hp.length_eq, ← List.length_map (recordsOf net (l₁ ++ l₂)) (fun res => res.Url), hurl]
      simp
  · intro net doc ha hrec hb sched out hreply
    obtain ⟨s, hrun, hd⟩ := handler_get_jobs_some hreply
    have hok : ∀ url ∈ ["https://site/a"] ++ ([] : List String),
        ∃ doc, net url = some ⟨200, some doc⟩ := by
      intro url hu
      simp only [List.append_nil, List.mem_singleton] at hu
      exact ⟨doc, by rw [hu]; exact ha⟩
    obtain ⟨h1, _, _⟩ := key net ["https://site/a"] [] "https://site/b" hb hok
    have hp := (reply_perm hrun hd).1
    have e : recordsOf net ["https://site/a", "https://site/b"] = [recEngineer] := by
      rw [show ["https://site/a", "https://site/b"] = ["https://site/a"] ++ "https://site/b" :: []
        from rfl, h1, List.append_nil, recordsOf_single_record (fetch_ok net _ doc ha), hrec]
    rw [e] at hp
    exact List.perm_singleton.mp hp

/-- C2 at the site: the batch of the job page and a URL that does not connect, with worker 0
taking both, is answered with the one record of the job page. -/
theorem one_transport_error_batch_witness :
    siteNet "https://site/b" = none ∧
    (∀ url ∈ ["https://site/a"] ++ ([] : List String),
      ∃ doc, siteNet url = some ⟨200, some doc⟩) ∧
    run (["https://site/a"] ++ "https://site/b" :: []) siteNet schedAB init = some replyAB ∧
    replyAB.main = .done [recEngineer] ∧
    ([recEngineer].length = (["https://site/a"] ++ "https://site/b" :: []).length - 1 ∧
      [recEngineer].Perm (recordsOf siteNet (["https://site/a"] ++ [])) ∧
      (recordsOf siteNet (["https://site/a"] ++ [])).map (fun res => res.Url)
        = ["https://site/a"] ++ []) ∧
    siteNet "https://site/a" = some ⟨200, some docEngineer⟩ ∧
    extract docEngineer "https://site/a" = recEngineer ∧
    handler_get_jobs ["https://site/a", "https://site/b"] siteNet schedAB = some [recEngineer] ∧
    [recEngineer] = [recEngineer] :=
  have hb : siteNet "https://site/b" = none := rfl
  have hok : ∀ url ∈ ["https://site/a"] ++ ([] : List String),
      ∃ doc, siteNet url = some ⟨200, some doc⟩ := fun url hu => by
    simp only [List.append_nil, List.mem_singleton] at hu
    exact ⟨docEngineer, by rw [hu]; rfl⟩
  have hrun : run (["https://site/a"] ++ "https://site/b" :: []) siteNet schedAB init
      = some replyAB := by decide
  ⟨hb, hok, hrun, rfl,
    (one_transport_error_batch.1 siteNet ["https://site/a"] [] "https://site/b" hb hok
      schedAB replyAB hrun).2.2.2.2 [recEngineer] rfl,
    rfl, by decide, by decide,
    one_transport_error_batch.2 siteNet docEngineer rfl (by decide) hb schedAB
      [recEngineer] (by decide)⟩

theorem sum_live_le_length : ∀ (l : List WorkerPc), (l.map WorkerPc.live).sum ≤ l.length
  | [] => Nat.le_refl _
  | pc :: l => by
    have ih := sum_live_le_length l
    simp only [List.map_cons, List.sum_cons, List.length_cons]
    cases pc <;> simp only [WorkerPc.live] <;> omega

/-- C5: whatever the schedule, the aggregate the handler reads after `wg.Wait()` holds
exactly the records of the URLs of the batch that were fetched and parsed, each occurrence
once. The read comes when every worker has returned; at most one worker is between `Lock`
and `Unlock`, and it holds the mutex; the only move that changes the aggregate is a write
by the worker holding the mutex, which appends one whole record to the aggregate as it
stands; and until the read every record is in the aggregate, owed by a worker, or of a
URL not yet sent. -/
theorem aggregate_after_barrier (urls : List String) (net : Net) (sched : List Action)
    (s : State) (h : run urls net sched init = some s) :
    (∀ out, s.main = .done out →
      out = s.results.array ∧ out.Perm (recordsOf net urls) ∧ fatalsOf net urls = []) ∧
    ((s.main = .read ∨ ∃ out, s.main = .done out) →
      s.wg = 0 ∧ ∀ pc ∈ s.workers, pc = .finished) ∧
    (∀ (w w' : Nat) (pc pc' : WorkerPc), s.workers[w]? = some pc → s.workers[w']? = some pc' →
      pc.inCS = true → pc'.inCS = true → w = w') ∧
    (∀ (w : Nat) (pc : WorkerPc), s.workers[w]? = some pc → pc.inCS = true →
      s.results.mux = true) ∧
    (∀ a s', step urls net a s = some s' →
      s'.results.array = s.results.array ∨
      ∃ (w : Nat) (res : response), s.workers[w]? = some (.store res s.results.array) ∧
        s.results.mux = true ∧ s'.results.array = s.results.array ++ [res]) ∧
    ((s.results.array : Multiset response) + (s.workers.map (WorkerPc.pend net)).sum
      + (recordsOf net (urls.drop (s.main.sent urls.length)) : List response)
      = (recordsOf net urls : List response)) := by
  have inv := Reachable.invariant ⟨sched, h⟩
  have hfin : (s.main = .read ∨ ∃ out, s.main = .done out) →
      ∀ pc ∈ s.workers, pc = .finished := by
    have ph := inv.phase
    unfold Phase at ph
    rintro (hm | ⟨out, hm⟩) <;> rw [hm] at ph
    · exact ph.2.2
    · exact ph.2.2.1
  refine ⟨?_, ?_, inv.cs_unique, inv.cs_locked, ?_, inv.acct⟩
  · intro out hd
    have ph := inv.phase
    unfold Phase at ph
    rw [hd] at ph
    exact ⟨ph.2.2.2, inv.done_output hd⟩
  · intro hm
    refine ⟨?_, hfin hm⟩
    have hl := inv.wg_live
    rw [sum_zero_of_all_finished WorkerPc.live rfl _ (hfin hm)] at hl
    rcases hm with hm | ⟨out, hm⟩ <;> rw [hm] at hl <;> exact hl
  · intro a s' hst
    obtain ⟨_, hS⟩ := step_sound hst
    cases hS with
    | store w res tmp hw =>
      have ht := inv.store_tmp w res tmp hw
      subst ht
      exact .inr ⟨w, res, hw, inv.cs_locked w _ hw rfl, rfl⟩
    | _ => exact .inl rfl

/-- C5 at the site: the reply of the batch of two, and the write of worker 0 while it holds
the mutex. -/
theorem aggregate_after_barrier_witness :
    run batchAB siteNet schedAB init = some replyAB ∧
    replyAB.main = .done [recEngineer] ∧
    [recEngineer].Perm (recordsOf siteNet batchAB) ∧
    run batchAB siteNet schedStore init = some midStore ∧
    step batchAB siteNet (.work 0) midStore
      = some { midStore with results := { array := [recEngineer], mux := true },
                             workers := .unlock :: List.replicate 9 .recv } ∧
    (([recEngineer] : List response) = midStore.results.array ∨
      ∃ (w : Nat) (res : response),
        midStore.workers[w]? = some (.store res midStore.results.array) ∧
        midStore.results.mux = true ∧ [recEngineer] = midStore.results.array ++ [res]) :=
  have hrun : run batchAB siteNet schedAB init = some replyAB := by decide
  have hmid : run batchAB siteNet schedStore init = some midStore := by decide
  have hst : step batchAB siteNet (.work 0) midStore
      = some { midStore with results := { array := [recEngineer], mux := true },
                             workers := .unlock :: List.replicate 9 .recv } := by decide
  ⟨hrun, rfl,
    ((aggregate_after_barrier batchAB siteNet schedAB replyAB hrun).1 [recEngineer] rfl).2.1,
    hmid, hst,
    (aggregate_after_barrier batchAB siteNet schedStore midStore hmid).2.2.2.2.1 _ _ hst⟩

/-- C4: a record that `crawl(url, results)` appends has `Url` equal to `url`, whatever the
page holds; so, whatever the schedule, every record in the aggregate and in the reply has
the `Url` of one of the URLs of the batch. -/
theorem record_url_is_source (urls : List String) (net : Net) :
    (∀ (url : String) (results results' : SafeResponseArray),
      crawl net url results = .returned results' →
        results' = results ∨
        ∃ res, results' = { array := results.array ++ [res], mux := false } ∧ res.Url = url) ∧
    (∀ (sched : List Action) (s : State), run urls net sched init = some s →
      (∀ res ∈ s.results.array, res.Url ∈ urls) ∧
      ∀ out, s.main = .done out → ∀ res ∈ out, res.Url ∈ urls) := by
  constructor
  · intro url results results' hc
    unfold crawl at hc
    split at hc
    · cases hc; exact .inl rfl
    · cases hc
    · rename_i res hf
      cases hc
      exact .inr ⟨res, rfl, fetch_record_Url net url res hf⟩
  · intro sched s hrun
    have hmem : ∀ res ∈ s.results.array, res.Url ∈ urls := by
      intro res hres
      obtain ⟨url, hu, hf⟩ := array_mem hrun hres
      rw [fetch_record_Url net url res hf]
      exact hu
    refine ⟨hmem, ?_⟩
    intro out hd res hres
    have ph := (Reachable.invariant ⟨sched, hrun⟩).phase
    unfold Phase at ph
    rw [hd] at ph
    rw [ph.2.2.2] at hres
    exact hmem res hres

/-- C4 at the site: the record of a page without any match carries its URL, and the record
in the reply of the batch of two carries a URL of the batch. -/
theorem record_url_is_source_witness :
    crawl siteNet "https://site/bare" {}
      = .returned { array := [{ Url := "https://site/bare" }], mux := false } ∧
    (({ array := [{ Url := "https://site/bare" }], mux := false } : SafeResponseArray) = {} ∨
      ∃ res : response,
        ({ array := [{ Url := "https://site/bare" }], mux := false } : SafeResponseArray)
          = { array := ({} : SafeResponseArray).array ++ [res], mux := false } ∧
        res.Url = "https://site/bare") ∧
    run batchAB siteNet schedAB init = some replyAB ∧
    replyAB.main = .done [recEngineer] ∧
    ∀ res ∈ [recEngineer], res.Url ∈ batchAB :=
  have hc : crawl siteNet "https://site/bare" {}
      = .returned { array := [{ Url := "https://site/bare" }], mux := false } := by decide
  have hrun : run batchAB siteNet schedAB init = some replyAB := by decide
  ⟨hc, (record_url_is_source batchAB siteNet).1 _ _ _ hc, hrun, rfl,
    ((record_url_is_source batchAB siteNet).2 schedAB replyAB hrun).2 [recEngineer] rfl⟩

/-- C9: whatever the batch, the handler first starts ten workers and adds ten units to the
wait group. No URL is handed over during that loop; whenever a URL is handed over, ten
workers have been started and the counter stands at ten; from the end of the loop on the
number of workers is ten; it is never more, and neither is the counter. -/
theorem ten_workers (urls : List String) (net : Net) :
    run urls net schedSpawn init = some spawned ∧
    ∀ (sched : List Action) (s : State), run urls net sched init = some s →
      s.workers.length ≤ 10 ∧ s.wg ≤ 10 ∧
      (∀ i, s.main = .add i ∨ s.main = .go i →
        s.workers.length = i - 1 ∧ i ≤ 11 ∧ (∀ w, step urls net (.deliver w) s = none) ∧
        ∀ pc ∈ s.workers, pc = .recv) ∧
      (∀ w s', step urls net (.deliver w) s = some s' →
        s.workers.length = 10 ∧ s.wg = 10) ∧
      (∀ k, s.main = .send k → s.workers.length = 10 ∧ s.wg = 10) ∧
      ((s.main = .wait ∨ s.main = .read ∨ ∃ out, s.main = .done out) →
        s.workers.length = 10) := by
  refine ⟨rfl, ?_⟩
  intro sched s hrun
  have inv := Reachable.invariant ⟨sched, hrun⟩
  have ph := inv.phase
  have hl := inv.wg_live
  have hle := sum_live_le_length s.workers
  unfold Phase at ph
  have hsend : ∀ k, s.main = .send k → s.workers.length = 10 ∧ s.wg = 10 := by
    intro k hm
    rw [hm] at ph hl
    refine ⟨ph.2.1, ?_⟩
    have hopen := inv.open_live ph.2.2
    have : (s.workers.map WorkerPc.live).sum = s.workers.length := by
      clear hle hl
      generalize s.workers = l at hopen
      induction l with
      | nil => rfl
      | cons pc l ih =>
        have h1 := hopen pc (List.mem_cons_self _ _)
        have h2 := ih (fun q hq => hopen q (List.mem_cons_of_mem _ hq))
        simp only [List.map_cons, List.sum_cons, List.length_cons, h2]
        cases pc <;> first | exact absurd rfl h1 | (simp only [WorkerPc.live]; omega)
    simp only [] at hl
    omega
  refine ⟨?_, ?_, ?_, ?_, hsend, ?_⟩
  · cases hm : s.main <;> rw [hm] at ph <;> omega
  · cases hm : s.main <;> rw [hm] at ph hl <;> simp only [] at hl <;> omega
  · intro i hm
    have hdel : ∀ w, step urls net (.deliver w) s = none := by
      intro w
      unfold step
      split
      · rfl
      · rcases hm with hm | hm <;> simp [deliver_step, hm]
    rcases hm with hm | hm <;> rw [hm] at ph
    · exact ⟨ph.2.2.1, ph.2.1, hdel, ph.2.2.2.2⟩
    · exact ⟨ph.2.2.1, by omega, hdel, ph.2.2.2.2⟩
  · intro w s' hst
    obtain ⟨_, hS⟩ := step_sound hst
    have : ∃ k, s.main = .send k := by
      unfold step at hst
      split at hst
      · cases hst
      · simp only [deliver_step] at hst
        split at hst
        · exact ⟨_, ‹_›⟩
        · cases hst
    obtain ⟨k, hk⟩ := this
    exact hsend k hk
  · rintro (hm | hm | ⟨out, hm⟩) <;> rw [hm] at ph <;> exact ph.1

/-- C9 at the site: ten workers and ten units, for the batch of two after its first
hand-over and for the empty batch. -/
theorem ten_workers_witness :
    run batchAB siteNet schedStore init = some midStore ∧
    midStore.main = .send 1 ∧ (midStore.workers.length = 10 ∧ midStore.wg = 10) ∧
    run [] siteNet schedSpawn init = some spawned ∧
    (spawned.workers.length = 10 ∧ spawned.wg = 10) :=
  have hmid : run batchAB siteNet schedStore init = some midStore := by decide
  ⟨hmid, rfl, ((ten_workers batchAB siteNet).2 schedStore midStore hmid).2.2.2.2.1 1 rfl,
    (ten_workers [] siteNet).1,
    ((ten_workers [] siteNet).2 schedSpawn spawned (ten_workers [] siteNet).1).2.2.2.2.1 0 rfl⟩

/-! ## Theorems: the claims about one call -/

theorem foldl_getLast (l : List String) (d t : String) (h : l.getLast? = some t) :
    l.foldl (fun _ s => s) d = t := by
  have hne : l ≠ [] := by
    intro e
    rw [e] at h
    cases h
  rw [foldl_last l d hne]
  rw [List.getLast?_eq_getLast l hne] at h
  exact Option.some.inj h

/-- C6 (amended): for a page that is fetched with status 200 and parsed, `crawl` appends
one record, and each of its three fields whose selector matches one or more nodes is the
text of the last of these nodes in document order. -/
theorem field_is_last_match (net : Net) (url : String) (results : SafeResponseArray)
    (doc : Document) (h : net url = some ⟨200, some doc⟩) :
    ∃ res, crawl net url results
        = .returned { array := results.array ++ [res], mux := false } ∧
      (∀ t, (doc.Find titleSelector).getLast? = some t → res.Title = t) ∧
      (∀ t, (doc.Find locationSelector).getLast? = some t → res.Location = t) ∧
      (∀ t, (doc.Find companySelector).getLast? = some t → res.Company = t) := by
  refine ⟨extract doc url, crawl_ok net url results doc h, ?_, ?_, ?_⟩ <;>
    intro t ht <;> rw [extract_eq] <;> exact foldl_getLast _ _ _ ht

/-- C6 (amended) at a page with two titles: the record takes the second. -/
theorem field_is_last_match_witness :
    siteNet "https://site/two" = some ⟨200, some docTwoTitles⟩ ∧
    (docTwoTitles.Find titleSelector).getLast? = some "Senior" ∧
    ∃ res, crawl siteNet "https://site/two" {}
        = .returned { array := ({} : SafeResponseArray).array ++ [res], mux := false } ∧
      res.Title = "Senior" :=
  have hn : siteNet "https://site/two" = some ⟨200, some docTwoTitles⟩ := rfl
  have hl : (docTwoTitles.Find titleSelector).getLast? = some "Senior" := by decide
  ⟨hn, hl,
    (field_is_last_match siteNet "https://site/two" {} docTwoTitles hn).imp
      fun _ hres => ⟨hres.1, hres.2.1 "Senior" hl⟩⟩

/-- C6 as stated fails: on a page whose title selector matches "Junior" and then "Senior",
the first match is "Junior" and the record's title is "Senior". -/
theorem first_match_counterexample :
    siteNet "https://site/two" = some ⟨200, some docTwoTitles⟩ ∧
    (docTwoTitles.Find titleSelector).head? = some "Junior" ∧
    crawl siteNet "https://site/two" {}
      = .returned { array := [{ Title := "Senior", Url := "https://site/two" }], mux := false } ∧
    ¬ ∃ res, crawl siteNet "https://site/two" {}
        = .returned { array := [res], mux := false } ∧ res.Title = "Junior" := by
  refine ⟨rfl, by decide, by decide, ?_⟩
  rintro ⟨res, hc, ht⟩
  have hc' : crawl siteNet "https://site/two" {}
      = .returned { array := [{ Title := "Senior", Url := "https://site/two" }], mux := false } := by
    decide
  rw [hc'] at hc
  injection hc with hc
  injection hc with ha _
  injection ha with hr _
  rw [← hr] at ht
  revert ht
  decide

/-- C7: for a page that is fetched with status 200 and parsed, `crawl` appends exactly one
record, whatever its selectors match; a field whose selector matches nothing is the empty
string; each field depends on the matches of its own selector only; and the record is in
the reply of every batch that holds the URL. -/
theorem selector_miss_keeps_record (net : Net) (url : String) (doc : Document)
    (h : net url = some ⟨200, some doc⟩) :
    (∀ results, crawl net url results
      = .returned { array := results.array ++ [extract doc url], mux := false }) ∧
    (extract doc url).Url = url ∧
    (doc.Find titleSelector = [] → (extract doc url).Title = "") ∧
    (doc.Find locationSelector = [] → (extract doc url).Location = "") ∧
    (doc.Find companySelector = [] → (extract doc url).Company = "") ∧
    (∀ doc' url', doc'.Find titleSelector = doc.Find titleSelector →
      (extract doc' url').Title = (extract doc url).Title) ∧
    (∀ doc' url', doc'.Find locationSelector = doc.Find locationSelector →
      (extract doc' url').Location = (extract doc url).Location) ∧
    (∀ doc' url', doc'.Find companySelector = doc.Find companySelector →
      (extract doc' url').Company = (extract doc url).Company) ∧
    (∀ (urls : List String) (sched : List Action) (s : State) (out : List response),
      url ∈ urls → run urls net sched init = some s → s.main = .done out →
        extract doc url ∈ out) := by
  refine ⟨fun results => crawl_ok net url results doc h, extract_Url doc url, ?_, ?_, ?_,
    ?_, ?_, ?_, ?_⟩
  · intro e; rw [extract_eq, e]; rfl
  · intro e; rw [extract_eq, e]; rfl
  · intro e; rw [extract_eq, e]; rfl
  · intro doc' url' e; rw [extract_eq, extract_eq, e]
  · intro doc' url' e; rw [extract_eq, extract_eq, e]
  · intro doc' url' e; rw [extract_eq, extract_eq, e]
  · intro urls sched s out hu hrun hd
    have hp := (reply_perm hrun hd).1
    apply hp.mem_iff.mpr
    apply List.mem_filterMap.mpr
    exact ⟨url, hu, by simp [recordOf, fetch_ok net url doc h]⟩

/-- C7 at a page with titles only: location and company are empty, the record is appended
and is in the reply. -/
theorem selector_miss_keeps_record_witness :
    siteNet "https://site/two" = some ⟨200, some docTwoTitles⟩ ∧
    docTwoTitles.Find locationSelector = [] ∧
    crawl siteNet "https://site/two" {}
      = .returned { array := ({} : SafeResponseArray).array
          ++ [extract docTwoTitles "https://site/two"], mux := false } ∧
    (extract docTwoTitles "https://site/two").Location = "" ∧
    extract docTwoTitles "https://site/two" = { Title := "Senior", Url := "https://site/two" } ∧
    "https://site/two" ∈ ["https://site/two"] ∧
    run ["https://site/two"] siteNet (schedSpawn ++ schedCrawl 0 ++ schedDrain) init
      = some { replyAB with
          main := .done [{ Title := "Senior", Url := "https://site/two" }],
          results := { array := [{ Title := "Senior", Url := "https://site/two" }],
                       mux := false } } ∧
    extract docTwoTitles "https://site/two"
      ∈ [({ Title := "Senior", Url := "https://site/two" } : response)] :=
  have hn : siteNet "https://site/two" = some ⟨200, some docTwoTitles⟩ := rfl
  have hl : docTwoTitles.Find locationSelector = [] := by decide
  have hu : "https://site/two" ∈ ["https://site/two"] := List.mem_singleton.mpr rfl
  have hrun : run ["https://site/two"] siteNet (schedSpawn ++ schedCrawl 0 ++ schedDrain) init
      = some { replyAB with
          main := .done [{ Title := "Senior", Url := "https://site/two" }],
          results := { array := [{ Title := "Senior", Url := "https://site/two" }],
                       mux := false } } := by decide
  ⟨hn, hl, (selector_miss_keeps_record siteNet "https://site/two" docTwoTitles hn).1 {},
    (selector_miss_keeps_record siteNet "https://site/two" docTwoTitles hn).2.2.2.1 hl,
    by decide, hu, hrun,
    (selector_miss_keeps_record siteNet "https://site/two" docTwoTitles hn).2.2.2.2.2.2.2.2
      ["https://site/two"] _ _ _ hu hrun rfl⟩

/-! ## Theorems: crawl and worker_crawl against the moves -/

/-- The moves of one worker from the call of `crawl` to its return, taken with the mutex
free and nobody in between, come to what `crawl` computes. -/
theorem crawl_matches_moves (urls : List String) (net : Net) (s : State) (w : Nat)
    (url : String) (hex : s.exited = false) (hw : s.workers[w]? = some (.crawl url))
    (hmux : s.results.mux = false) :
    match crawl net url s.results with
    | .returned results =>
      ∃ n, n ≤ 5 ∧ run urls net (List.replicate n (.work w)) s
        = some { s with results := results, workers := s.workers.set w .recv }
    | .exited => run urls net [.work w] s = some { s with exited := true } := by
  obtain ⟨hlt, _⟩ := List.getElem?_eq_some_iff.mp hw
  unfold crawl
  cases hf : fetch net url with
  | dropped =>
    refine ⟨1, by decide, ?_⟩
    simp [run, step, hex, worker_crawl_step, hw, hf]
  | fatal => simp [run, step, hex, worker_crawl_step, hw, hf]
  | record res =>
    refine ⟨5, Nat.le_refl _, ?_⟩
    simp [run, step, hex, worker_crawl_step, hw, hf, hmux, List.getElem?_set_self hlt]

/-- A worker whose URLs all let `crawl` return calls `crawl` once on each, in order, then
calls `wg.Done` once and returns, with the records of its URLs appended in order. -/
theorem worker_crawl_returns (net : Net) :
    ∀ (jobs : List String) (results : SafeResponseArray) (wg : Nat),
      fatalsOf net jobs = [] → 0 < wg →
      ∃ results', worker_crawl net jobs results wg
          = (jobs.map Event.crawl ++ [.done], .returned (results', wg - 1)) ∧
        results'.array = results.array ++ recordsOf net jobs
  | [], results, wg, _, hwg => by
    refine ⟨results, ?_, by simp [recordsOf]⟩
    simp [worker_crawl, Nat.ne_of_gt hwg]
  | url :: jobs, results, wg, hf, hwg => by
    have hf' := fatalsOf_append net [url] jobs
    rw [show [url] ++ jobs = url :: jobs from rfl, hf] at hf'
    obtain ⟨h1, h2⟩ := List.append_eq_nil.mp hf'.symm
    unfold worker_crawl crawl
    cases hfe : fetch net url with
    | dropped =>
      obtain ⟨r', hr, ha⟩ := worker_crawl_returns net jobs results wg h2 hwg
      refine ⟨r', by simp [hr], ?_⟩
      rw [ha, recordsOf_cons, recordsOf_single_dropped hfe]; rfl
    | fatal => rw [fatalsOf_single_fatal hfe] at h1; cases h1
    | record res =>
      obtain ⟨r', hr, ha⟩ := worker_crawl_returns net jobs
        { array := results.array ++ [res], mux := false } wg h2 hwg
      refine ⟨r', by simp [hr], ?_⟩
      rw [ha, recordsOf_cons, recordsOf_single_record hfe]
      simp

/-- A worker never calls `wg.Done` before the channel is closed and drained: the calls it
makes are calls of `crawl` on the URLs it received, in order, and `wg.Done` can only come
after all of them. -/
theorem worker_crawl_trace (net : Net) :
    ∀ (jobs : List String) (results : SafeResponseArray) (wg : Nat),
      (worker_crawl net jobs results wg).1 = jobs.map Event.crawl ++ [.done] ∨
      ∃ k, k < jobs.length ∧ (worker_crawl net jobs results wg).1 = (jobs.take (k + 1)).map Event.crawl ∧
        (worker_crawl net jobs results wg).2 = .exited
  | [], results, wg => by
    left
    unfold worker_crawl
    split <;> rfl
  | url :: jobs, results, wg => by
    unfold worker_crawl
    cases hc : crawl net url results with
    | exited => exact .inr ⟨0, Nat.succ_pos _, rfl, rfl⟩
    | returned r =>
      rcases worker_crawl_trace net jobs r wg with h | ⟨k, hk, h1, h2⟩
      · left; simp [h]
      · right
        exact ⟨k + 1, Nat.succ_lt_succ hk, by simp [h1], by simp [h2]⟩

/-- The reply has as many records as the batch has URLs that did not fail. -/
theorem reply_count {urls : List String} {net : Net} {sched : List Action} {s : State}
    {out : List response} (h : run urls net sched init = some s) (hd : s.main = .done out) :
    out.length + (failedOf net urls).length = urls.length ∧ out.length ≤ urls.length := by
  have hp := (reply_perm h hd).1
  have := recordsOf_length_add_failedOf_length net urls
  rw [hp.length_eq]
  omega

/-! ## Theorems: where the process ends -/

/-- C1, at a URL that answers 404: `crawl` does not return, the process ends (while on a
URL that does not connect it returns with the aggregate as it was). In the batch of the job
page and that URL, the schedule in which worker 0 takes both ends the process with the
record of the job page in the aggregate and the handler still in its send loop; no schedule
reaches the reply, and every schedule that cannot go on has ended the process. -/
theorem bad_status_ends_process :
    siteNet "https://site/gone" = some ⟨404, some docBare⟩ ∧
    crawl siteNet "https://site/gone" {} = .exited ∧
    crawl siteNet "https://site/b" {} = .returned {} ∧
    (run batchGone siteNet schedSecond init).map
        (fun s => (s.exited, s.main, s.results.array))
      = some (true, .send 2, [recEngineer]) ∧
    ∀ (sched : List Action) (s : State), run batchGone siteNet sched init = some s →
      (∀ out, s.main ≠ .done out) ∧
      ((∀ a, step batchGone siteNet a s = none) → s.exited = true) := by
  refine ⟨rfl, by decide, by decide, by decide, ?_⟩
  intro sched s hrun
  have hnever := @never_replies batchGone siteNet (by decide) sched s hrun
  refine ⟨hnever, fun hstuck => ?_⟩
  rcases stuck_final hrun hstuck with h | ⟨out, h⟩
  · exact h
  · exact absurd h (hnever out)

/-- C8, at a URL that answers 200 with a body that cannot be parsed: `crawl` does not
return, the process ends. In the batch of that URL and the job page, the schedule in which
worker 3 takes the first URL ends the process with an empty aggregate and the job page
never sent; no schedule reaches the reply, and every schedule that cannot go on has ended
the process. -/
theorem parse_error_ends_process :
    siteNet "https://site/garbled" = some ⟨200, none⟩ ∧
    crawl siteNet "https://site/garbled" {} = .exited ∧
    (run batchGarbled siteNet schedFirst init).map
        (fun s => (s.exited, s.main, s.results.array))
      = some (true, .send 1, []) ∧
    ∀ (sched : List Action) (s : State), run batchGarbled siteNet sched init = some s →
      (∀ out, s.main ≠ .done out) ∧
      ((∀ a, step batchGarbled siteNet a s = none) → s.exited = true) := by
  refine ⟨rfl, by decide, by decide, ?_⟩
  intro sched s hrun
  have hnever := @never_replies batchGarbled siteNet (by decide) sched s hrun
  refine ⟨hnever, fun hstuck => ?_⟩
  rcases stuck_final hrun hstuck with h | ⟨out, h⟩
  · exact h
  · exact absurd h (hnever out)

/-- C3, at the batch of the job page, a URL that does not connect and a URL whose body
cannot be parsed: two of the three URLs fail, so one record is due; the schedule in which
each goes to a worker of its own ends the process, and no schedule reaches a reply, with
one record or any other number. -/
theorem failed_parse_batch_never_replies :
    batchMixed.length = 3 ∧ (failedOf siteNet batchMixed).length = 2 ∧
    recordsOf siteNet batchMixed = [recEngineer] ∧
    (run batchMixed siteNet schedThird init).map
        (fun s => (s.exited, s.main, s.results.array))
      = some (true, .send 3, [recEngineer]) ∧
    ∀ (sched : List Action) (s : State), run batchMixed siteNet sched init = some s →
      ∀ out, s.main ≠ .done out := by
  refine ⟨rfl, by decide, by decide, by decide, ?_⟩
  intro sched s hrun
  exact @never_replies batchMixed siteNet (by decide) sched s hrun

/-- C10, at a worker that receives the job page and then a URL that answers 404: it calls
`crawl` on both, in order, and that is all; it neither calls `wg.Done` nor returns. -/
theorem worker_never_signals :
    worker_crawl siteNet ["https://site/a", "https://site/gone"] {} 10
      = ([.crawl "https://site/a", .crawl "https://site/gone"], .exited) ∧
    Event.done ∉ (worker_crawl siteNet ["https://site/a", "https://site/gone"] {} 10).1 := by
  constructor <;> decide

end WebScraper
